import Mathlib

/-!
# SimpleCalculator: the tokenizer and the recursive-descent evaluator

A shallow embedding of `calculator.cpp` (class `Calculator` and the global
stream `is`), followed by theorems about it.

* C++ `double` and `int` are not fixed here: every function takes a record
  `DoubleOps D` with the operations the source applies to them, so the
  theorems hold for any arithmetic, IEEE doubles included.  `ratOps` is the
  exact rational instance used to evaluate concrete inputs.
* A thrown `std::runtime_error` is `Except.error`; nothing in the evaluator
  catches, so the error reaches `calculate_expression`, whose `catch` prints
  it.  Control then flows off the end of the function, which returns
  `double`: the caller receives a `double` of indeterminate value (undefined
  behaviour).  `Except.error` records that the exception reached the
  `catch`; `received` says what the caller is handed.
* The `int` of the source has 32 bits.  The conversions `int(x)` and the
  division `i1/i2` are computed on integers and tested against the range of
  `int`; where the source's behaviour is undefined (a conversion or a
  quotient outside the range) the run ends in `Err.intUndefined`.
* The `while (true)` loops and the recursion are modelled with a fuel
  argument; a run that needs more fuel ends in `Err.outOfFuel`.
* Statements about what happens in the course of an evaluation (every call
  of `putback`, every Token pulled, every division) are made with the
  relation `Reaches` between calls.
-/

set_option maxRecDepth 100000

namespace Calculator

/-- What can end a run of the evaluator before `return expression();`.  The
first six are the `std::runtime_error`s of the source; `noChar` and
`intUndefined` mark the points where the behaviour of the source is
undefined, and `outOfFuel` belongs to the model. -/
inductive Err where
  /-- Thrown by `Token_stream::putback`. -/
  | putbackFull
  /-- Thrown by `Token_stream::get`. -/
  | badToken
  /-- Thrown by `term` at `/`. -/
  | divideByZero
  /-- Thrown by `term` at `%`. -/
  | modDivideByZero
  /-- Thrown by `primary` after a parenthesised expression. -/
  | rparenExpected
  /-- Thrown by `primary`. -/
  | primaryExpected
  /-- The extraction `is>>ch` stored nothing (input exhausted, or the stream
  had failed): the source goes on to switch on an uninitialised `ch`, whose
  value is indeterminate.  The model stops the run here. -/
  | noChar
  /-- In the `%` branch of `term`, a conversion `int(x)` of a value whose
  truncation is not a value of `int`, or a division `i1/i2` whose quotient is
  not a value of `int`: the behaviour of the source is undefined.  The model
  stops the run here. -/
  | intUndefined
  /-- The fuel given to the model ran out. -/
  | outOfFuel
deriving DecidableEq, Repr

deriving instance DecidableEq for Except

/-- The text of the `std::runtime_error`, for the errors the source throws. -/
def Err.what : Err → Option String
  | .putbackFull => some "putback() into a full buffer"
  | .badToken => some "Bad token"
  | .divideByZero => some "divide by zero"
  | .modDivideByZero => some "%: divide by zero"
  | .rparenExpected => some "')' expected"
  | .primaryExpected => some "primary expected"
  | .noChar => none
  | .intUndefined => none
  | .outOfFuel => none

/-- The least value of a 32-bit `int`. -/
def intMin : Int := -2147483648

/-- The greatest value of a 32-bit `int`. -/
def intMax : Int := 2147483647

/-- The integer is a value of a 32-bit `int`. -/
def InIntRange (i : Int) : Prop := intMin ≤ i ∧ i ≤ intMax

instance (i : Int) : Decidable (InIntRange i) :=
  inferInstanceAs (Decidable (intMin ≤ i ∧ i ≤ intMax))

/-- Result of the library extraction `is>>val` on the remaining characters:
the value stored in `val`, whether the extraction succeeded (otherwise the
stream's failbit is set), and the characters left in the stream. -/
structure Extracted (D : Type) where
  value : D
  ok : Bool
  rest : List Char
deriving DecidableEq, Repr

/-- The operations on `double` and `int` that the source uses.  They are
parameters of the model: the standard library and the floating-point unit are
not part of the repository. -/
structure DoubleOps (D : Type) where
  /-- The `double` 0 that `Token(char)` stores in `value`. -/
  zero : D
  /-- The addition in `left += x`. -/
  add : D → D → D
  /-- The subtraction in `left -= x`. -/
  sub : D → D → D
  /-- The multiplication in `left *= x`. -/
  mul : D → D → D
  /-- The division in `left /= d`. -/
  div : D → D → D
  /-- Unary minus. -/
  neg : D → D
  /-- The test `d==0`. -/
  isZero : D → Bool
  /-- The conversion `int(x)`: the truncation of `x` toward zero, as an
  integer.  The source's conversion is defined only when this integer is a
  value of `int` (`InIntRange`), which the loop of `term` tests where it
  converts; for an operand that has no truncation (a NaN, an infinity) an
  instance gives an integer outside that range. -/
  toInt : D → Int
  /-- The conversion of an `int` to `double` in `left = i1/i2`. -/
  ofInt : Int → D
  /-- The extraction `is>>val` of a floating-point literal. -/
  extract : List Char → Extracted D

/-- The global `std::istringstream is`: the characters not yet read and the
failbit. -/
structure IStream where
  chars : List Char
  fail : Bool
deriving DecidableEq, Repr

/-- The constant `const char number = '8'`: the kind of a number Token. -/
def number : Char := '8'

/-- The constant `const char print = ';'`: the statement terminator. -/
def print : Char := ';'

/-- The class `Token`. -/
structure Token (D : Type) where
  kind : Char
  value : D
deriving DecidableEq, Repr

/-- The class `Token_stream`: the flag `full` and the one-slot `buffer`. -/
structure Token_stream (D : Type) where
  full : Bool
  buffer : Token D
deriving DecidableEq, Repr

/-- The mutable state the evaluator works on: the member `ts` of the
`Calculator` and the global stream `is`. -/
structure State (D : Type) where
  ts : Token_stream D
  is : IStream
deriving DecidableEq, Repr

/-- Outcome of a step of the evaluator: an error, or a value with the state
after the step. -/
abbrev Res (D : Type) (α : Type) : Type := Except Err (α × State D)

/-- The constructor `Token()`: kind `char{}`, value 0. -/
def Token.default (A : DoubleOps D) : Token D := ⟨Char.ofNat 0, A.zero⟩

/-- The constructor `Token(char ch)`: value 0. -/
def Token.ofChar (A : DoubleOps D) (ch : Char) : Token D := ⟨ch, A.zero⟩

/-- The constructor `Token_stream()`: `full{false}, buffer{Token{}}`. -/
def Token_stream.init (A : DoubleOps D) : Token_stream D := ⟨false, Token.default A⟩

/-- A freshly constructed `Calculator`, before any input is installed. -/
def State.init (A : DoubleOps D) : State D := ⟨Token_stream.init A, ⟨[], false⟩⟩

/-- Modelled from the spec: the characters that the whitespace-skipping read
of the standard library skips (`std::isspace` in the classic locale); the
library is not part of the repository. -/
def isSpace (c : Char) : Bool :=
  c = ' ' || c = '\t' || c = '\n' || c = Char.ofNat 11 || c = Char.ofNat 12 || c = '\r'

/-- Modelled from the spec: the whitespace skipping of the library read
`is>>ch`, which is not part of the repository: the leading whitespace is
dropped. -/
def skipws : List Char → List Char
  | [] => []
  | c :: cs => if isSpace c then skipws cs else c :: cs

/-- Modelled from the spec: the extraction `is>>ch` of the standard library,
which is not part of the repository: skip whitespace and read one character.
It is `none` when the stream had failed or no character is left; `ch` is
then not written. -/
def IStream.getChar (is : IStream) : Option (Char × IStream) :=
  if is.fail then none
  else
    match skipws is.chars with
    | [] => none
    | ch :: rest => some (ch, ⟨rest, false⟩)

/-- The call `is.putback(ch)`. -/
def IStream.putback (is : IStream) (ch : Char) : IStream :=
  ⟨ch :: is.chars, is.fail⟩

/-- The extraction `is>>val`: the value stored in `val` and the stream afterwards (failbit
set when the extraction failed). -/
def IStream.getDouble (A : DoubleOps D) (is : IStream) : D × IStream :=
  let r := A.extract is.chars
  (r.value, ⟨r.rest, !r.ok⟩)

/-- The characters of the first `case` group of `Token_stream::get`. -/
def isPunct (ch : Char) : Bool :=
  ch = print || ch = '(' || ch = ')' || ch = '+' || ch = '-' || ch = '*' || ch = '/' || ch = '%'

/-- The characters of the second `case` group of `Token_stream::get`. -/
def isNumStart (ch : Char) : Bool :=
  ch = '.' || ch = '0' || ch = '1' || ch = '2' || ch = '3' || ch = '4' ||
  ch = '5' || ch = '6' || ch = '7' || ch = '8' || ch = '9'

/-- The function `Token_stream::putback`. -/
def Token_stream.putback (t : Token D) (s : State D) : Except Err (State D) :=
  if s.ts.full then .error .putbackFull
  else .ok { s with ts := ⟨true, t⟩ }

/-- The function `Token_stream::get`. -/
def Token_stream.get (A : DoubleOps D) (s : State D) : Res D (Token D) :=
  if s.ts.full then
    .ok (s.ts.buffer, { s with ts := ⟨false, s.ts.buffer⟩ })
  else
    match s.is.getChar with
    | none => .error .noChar
    | some (ch, is1) =>
      if isPunct ch then .ok (Token.ofChar A ch, { s with is := is1 })
      else if isNumStart ch then
        let r := (is1.putback ch).getDouble A
        .ok (⟨number, r.1⟩, { s with is := r.2 })
      else .error .badToken

mutual

/-- The function `Calculator::expression`. -/
def expression (A : DoubleOps D) : Nat → State D → Res D D
  | 0, _ => .error .outOfFuel
  | n + 1, s =>
    match term A n s with
    | .error e => .error e
    | .ok (left, s1) =>
      match Token_stream.get A s1 with
      | .error e => .error e
      | .ok (t, s2) => expressionLoop A n left t s2

/-- The `while (true)` loop of `Calculator::expression`, entered with the
accumulator `left` and the Token `t` just read. -/
def expressionLoop (A : DoubleOps D) : Nat → D → Token D → State D → Res D D
  | 0, _, _, _ => .error .outOfFuel
  | n + 1, left, t, s =>
    if t.kind = '+' then
      match term A n s with
      | .error e => .error e
      | .ok (x, s1) =>
        match Token_stream.get A s1 with
        | .error e => .error e
        | .ok (t1, s2) => expressionLoop A n (A.add left x) t1 s2
    else if t.kind = '-' then
      match term A n s with
      | .error e => .error e
      | .ok (x, s1) =>
        match Token_stream.get A s1 with
        | .error e => .error e
        | .ok (t1, s2) => expressionLoop A n (A.sub left x) t1 s2
    else
      match Token_stream.putback t s with
      | .error e => .error e
      | .ok s1 => .ok (left, s1)

/-- The function `Calculator::term`. -/
def term (A : DoubleOps D) : Nat → State D → Res D D
  | 0, _ => .error .outOfFuel
  | n + 1, s =>
    match primary A n s with
    | .error e => .error e
    | .ok (left, s1) =>
      match Token_stream.get A s1 with
      | .error e => .error e
      | .ok (t, s2) => termLoop A n left t s2

/-- The `while (true)` loop of `Calculator::term`.  In the `%` branch the
source runs `int i1 = int(left); int i2 = int(term()); if (i2==0) throw ...;
left = i1/i2;` on 32-bit `int`: each conversion is defined only for a value
whose truncation is in the range of `int`, and the division only when its
quotient is (the quotient of the least `int` by -1 is not).  The run ends in
`Err.intUndefined` at the first of these that is undefined. -/
def termLoop (A : DoubleOps D) : Nat → D → Token D → State D → Res D D
  | 0, _, _, _ => .error .outOfFuel
  | n + 1, left, t, s =>
    if t.kind = '*' then
      match primary A n s with
      | .error e => .error e
      | .ok (x, s1) =>
        match Token_stream.get A s1 with
        | .error e => .error e
        | .ok (t1, s2) => termLoop A n (A.mul left x) t1 s2
    else if t.kind = '/' then
      match primary A n s with
      | .error e => .error e
      | .ok (d, s1) =>
        if A.isZero d then .error .divideByZero
        else
          match Token_stream.get A s1 with
          | .error e => .error e
          | .ok (t1, s2) => termLoop A n (A.div left d) t1 s2
    else if t.kind = '%' then
      let i1 := A.toInt left
      if ¬ InIntRange i1 then .error .intUndefined
      else
        match term A n s with
        | .error e => .error e
        | .ok (x, s1) =>
          let i2 := A.toInt x
          if ¬ InIntRange i2 then .error .intUndefined
          else if i2 = 0 then .error .modDivideByZero
          else if ¬ InIntRange (Int.tdiv i1 i2) then .error .intUndefined
          else
            match Token_stream.get A s1 with
            | .error e => .error e
            | .ok (t1, s2) => termLoop A n (A.ofInt (Int.tdiv i1 i2)) t1 s2
    else
      match Token_stream.putback t s with
      | .error e => .error e
      | .ok s1 => .ok (left, s1)

/-- The function `Calculator::primary`. -/
def primary (A : DoubleOps D) : Nat → State D → Res D D
  | 0, _ => .error .outOfFuel
  | n + 1, s =>
    match Token_stream.get A s with
    | .error e => .error e
    | .ok (t, s1) =>
      if t.kind = '(' then
        match expression A n s1 with
        | .error e => .error e
        | .ok (d, s2) =>
          match Token_stream.get A s2 with
          | .error e => .error e
          | .ok (t1, s3) =>
            if t1.kind ≠ ')' then .error .rparenExpected
            else .ok (d, s3)
      else if t.kind = number then .ok (t.value, s1)
      else if t.kind = '-' then
        match primary A n s1 with
        | .error e => .error e
        | .ok (x, s2) => .ok (A.neg x, s2)
      else if t.kind = '+' then primary A n s1
      else .error .primaryExpected

end

/-- The loop `while (t.kind == ';') t = ts.get();` of
`calculate_expression`, followed by `ts.putback(t); return expression();`. -/
def skipTerminators (A : DoubleOps D) : Nat → Token D → State D → Res D D
  | 0, _, _ => .error .outOfFuel
  | n + 1, t, s =>
    if t.kind = ';' then
      match Token_stream.get A s with
      | .error e => .error e
      | .ok (t1, s1) => skipTerminators A n t1 s1
    else
      match Token_stream.putback t s with
      | .error e => .error e
      | .ok s1 => expression A n s1

/-- The function `Calculator::calculate_expression`, run on a `Calculator` in
state `s`: `is` is replaced by a stream over `str`; `ts` is left as it is.
The result `.ok (v, s1)` is the `return expression();` of the `try` block.
The result `.error e`, for an error `e` that the source throws, says that the
exception reached the `catch` of the function, which prints `e.what()`.
The `catch` has no `return` statement: control flows off the end of a
function that returns `double`, and the caller receives a `double` of
indeterminate value.  So `.error e` does not say that the call yields no
number; what the caller is handed is given by `received`. -/
def calculate_expression (A : DoubleOps D) (fuel : Nat) (str : List Char) (s : State D) :
    Res D D :=
  match Token_stream.get A { s with is := ⟨str, false⟩ } with
  | .error e => .error e
  | .ok (t, s1) => skipTerminators A fuel t s1

/-- The result of a run without the final state: the value of
`return expression();`, or the error that ended the run (for an exception of
the source, the one that reached the `catch` and was printed). -/
def outcome (r : Res D D) : Except Err D :=
  match r with
  | .error e => .error e
  | .ok (v, _) => .ok v

/-- What `calculate_expression` hands to its caller, which stores it in
`result` and displays it (`result = cal.calculate_expression(expression);
lblOutput->value(convert_to_str(result).c_str());`). -/
inductive Received (D : Type) where
  /-- The value of `return expression();`. -/
  | value (v : D)
  /-- An exception was caught and printed, and control flowed off the end of
  the function: a `double` whose value is indeterminate (undefined
  behaviour). -/
  | indeterminate
deriving DecidableEq, Repr

/-- What the caller receives from a call whose run ended in `r`.  It is
`none` where the model stopped the run before the function came to its end
(`noChar`, `intUndefined`, `outOfFuel`). -/
def received (r : Res D D) : Option (Received D) :=
  match r with
  | .ok (v, _) => some (.value v)
  | .error e => if e.what.isSome then some .indeterminate else none

/-- Value of a decimal digit character. -/
def digitVal (c : Char) : Nat := c.toNat - 48

/-- Reads a run of decimal digits: the number accumulated on top of `acc`,
how many digits were read on top of `k`, and the characters left. -/
def scanDigits : List Char → Nat → Nat → Nat × Nat × List Char
  | [], acc, k => (acc, k, [])
  | c :: cs, acc, k =>
    if c.isDigit then scanDigits cs (acc * 10 + digitVal c) (k + 1) else (acc, k, c :: cs)

/-- Modelled from the spec: the numeric reader of the C++ standard library,
which is not part of the repository.  It reads optional digits and an
optional single decimal point followed by optional digits, and needs at
least one digit; no exponent is read.  A failed extraction stores 0. -/
def ratExtract (cs : List Char) : Extracted ℚ :=
  match scanDigits cs 0 0 with
  | (ip, ni, r1) =>
    match r1 with
    | '.' :: r2 =>
      match scanDigits r2 ip 0 with
      | (fp, nf, r3) =>
        if ni + nf = 0 then ⟨0, false, r3⟩ else ⟨mkRat fp (10 ^ nf), true, r3⟩
    | _ => if ni = 0 then ⟨0, false, r1⟩ else ⟨mkRat ip 1, true, r1⟩

/-- Exact rational arithmetic standing in for `double`: the instance on
which concrete inputs are evaluated.  The field operations are written with
`mkRat` and `Rat.divInt` so that they evaluate by reduction. -/
def ratOps : DoubleOps ℚ where
  zero := 0
  add a b := mkRat (a.num * b.den + b.num * a.den) (a.den * b.den)
  sub a b := mkRat (a.num * b.den - b.num * a.den) (a.den * b.den)
  mul a b := mkRat (a.num * b.num) (a.den * b.den)
  div a b := Rat.divInt (a.num * b.den) (a.den * b.num)
  neg a := -a
  isZero a := decide (a.num = 0)
  toInt a := Int.tdiv a.num a.den
  ofInt i := mkRat i 1
  extract := ratExtract

/-- The characters of a string literal. -/
def chars (str : String) : List Char := str.toList

/-! ### Token sequences and conventional parse trees

The vocabulary in which the behaviour of the evaluator on well-formed input
is stated: what the lexer delivers from a stream, and the parse trees of the
usual grammar of arithmetic expressions. -/

/-- One Token read from the character stream: `Token_stream::get` on an
empty buffer, keeping only the stream of the state. -/
def lexToken (A : DoubleOps D) (σ : IStream) : Except Err (Token D × IStream) :=
  match Token_stream.get A ⟨Token_stream.init A, σ⟩ with
  | .error e => .error e
  | .ok (t, s) => .ok (t, s.is)

/-- The first `k` Tokens of a stream and the stream after them. -/
def tokenize (A : DoubleOps D) : Nat → IStream → Except Err (List (Token D) × IStream)
  | 0, σ => .ok ([], σ)
  | k + 1, σ =>
    match lexToken A σ with
    | .error e => .error e
    | .ok (t, σ1) =>
      match tokenize A k σ1 with
      | .error e => .error e
      | .ok (l, σ2) => .ok (t :: l, σ2)

/-- The stream `σ` lexes as the Tokens `l`, which leaves the stream `σ1`. -/
def Lexes (A : DoubleOps D) : IStream → List (Token D) → IStream → Prop
  | σ, [], σ1 => σ = σ1
  | σ, t :: l, σ1 => ∃ σ2, lexToken A σ = .ok (t, σ2) ∧ Lexes A σ2 l σ1

/-- The next Tokens that `Token_stream::get` delivers in state `s` are `l`
(the buffered Token first, when there is one), which leaves the stream
`σ1`. -/
def Feeds (A : DoubleOps D) (s : State D) (l : List (Token D)) (σ1 : IStream) : Prop :=
  if s.ts.full then ∃ l1, l = s.ts.buffer :: l1 ∧ Lexes A s.is l1 σ1
  else Lexes A s.is l σ1

/-- Parse trees of arithmetic expressions over number literals, with the
parentheses kept as nodes. -/
inductive Expr (D : Type) where
  | num (v : D)
  | paren (e : Expr D)
  | neg (e : Expr D)
  | pos (e : Expr D)
  | add (l r : Expr D)
  | sub (l r : Expr D)
  | mul (l r : Expr D)
  | div (l r : Expr D)
deriving DecidableEq, Repr

/-- Binding level of the root of a tree: 0 for a literal, a parenthesised
expression or a signed operand, 1 for `*` and `/`, 2 for `+` and `-`. -/
def Expr.level : Expr D → Nat
  | .num _ => 0
  | .paren _ => 0
  | .neg _ => 0
  | .pos _ => 0
  | .mul _ _ => 1
  | .div _ _ => 1
  | .add _ _ => 2
  | .sub _ _ => 2

/-- The tree is the conventional parse tree of the Tokens it spells: a sign
applies to an operand of level 0 (signs bind tightest); the operands of `*`
and `/` are of level at most 1 on the left and of level 0 on the right (they
bind tighter than `+` and `-`, and associate to the left); the right operand
of `+` and `-` is of level at most 1 (left-associative). -/
def Expr.conventional : Expr D → Bool
  | .num _ => true
  | .paren e => e.conventional
  | .neg e => e.conventional && decide (e.level = 0)
  | .pos e => e.conventional && decide (e.level = 0)
  | .mul l r => l.conventional && r.conventional && decide (l.level ≤ 1) && decide (r.level = 0)
  | .div l r => l.conventional && r.conventional && decide (l.level ≤ 1) && decide (r.level = 0)
  | .add l r => l.conventional && r.conventional && decide (r.level ≤ 1)
  | .sub l r => l.conventional && r.conventional && decide (r.level ≤ 1)

/-- The Tokens a tree spells, left to right. -/
def Expr.toks (A : DoubleOps D) : Expr D → List (Token D)
  | .num v => [⟨number, v⟩]
  | .paren e => Token.ofChar A '(' :: (e.toks A ++ [Token.ofChar A ')'])
  | .neg e => Token.ofChar A '-' :: e.toks A
  | .pos e => Token.ofChar A '+' :: e.toks A
  | .add l r => l.toks A ++ Token.ofChar A '+' :: r.toks A
  | .sub l r => l.toks A ++ Token.ofChar A '-' :: r.toks A
  | .mul l r => l.toks A ++ Token.ofChar A '*' :: r.toks A
  | .div l r => l.toks A ++ Token.ofChar A '/' :: r.toks A

/-- Value of a tree in the arithmetic `A`. -/
def Expr.value (A : DoubleOps D) : Expr D → D
  | .num v => v
  | .paren e => e.value A
  | .neg e => A.neg (e.value A)
  | .pos e => e.value A
  | .add l r => A.add (l.value A) (r.value A)
  | .sub l r => A.sub (l.value A) (r.value A)
  | .mul l r => A.mul (l.value A) (r.value A)
  | .div l r => A.div (l.value A) (r.value A)

/-- No divisor in the tree has a value that compares equal to zero. -/
def Expr.noZeroDivisor (A : DoubleOps D) : Expr D → Bool
  | .num _ => true
  | .paren e => e.noZeroDivisor A
  | .neg e => e.noZeroDivisor A
  | .pos e => e.noZeroDivisor A
  | .add l r => l.noZeroDivisor A && r.noZeroDivisor A
  | .sub l r => l.noZeroDivisor A && r.noZeroDivisor A
  | .mul l r => l.noZeroDivisor A && r.noZeroDivisor A
  | .div l r => l.noZeroDivisor A && r.noZeroDivisor A && !A.isZero (r.value A)

/-! ### The calls of an evaluation

To speak of what happens in the course of an evaluation (every call of
`putback`, every Token pulled), the calls that the functions make are
spelled out: `Invokes A c c1` says that the call `c` makes the call `c1`
directly, and `Reaches` is its reflexive-transitive closure. -/

/-- A call of one of the functions of the evaluator, with its arguments and
the state it starts in. -/
inductive Call (D : Type) where
  | get (s : State D)
  | putback (t : Token D) (s : State D)
  | primary (n : Nat) (s : State D)
  | term (n : Nat) (s : State D)
  | termLoop (n : Nat) (left : D) (t : Token D) (s : State D)
  | expression (n : Nat) (s : State D)
  | expressionLoop (n : Nat) (left : D) (t : Token D) (s : State D)
  | skipTerminators (n : Nat) (t : Token D) (s : State D)
  | calculate_expression (fuel : Nat) (str : List Char) (s : State D)

/-- The error a result carries, if it is one. -/
def failure {α : Type} (r : Except Err α) : Option Err :=
  match r with
  | .error e => some e
  | .ok _ => none

/-- The error a call ends in, if it does not return. -/
def Call.failure (A : DoubleOps D) : Call D → Option Err
  | .get s => Calculator.failure (Token_stream.get A s)
  | .putback t s => Calculator.failure (Token_stream.putback t s)
  | .primary n s => Calculator.failure (Calculator.primary A n s)
  | .term n s => Calculator.failure (Calculator.term A n s)
  | .termLoop n left t s => Calculator.failure (Calculator.termLoop A n left t s)
  | .expression n s => Calculator.failure (Calculator.expression A n s)
  | .expressionLoop n left t s => Calculator.failure (Calculator.expressionLoop A n left t s)
  | .skipTerminators n t s => Calculator.failure (Calculator.skipTerminators A n t s)
  | .calculate_expression fuel str s => Calculator.failure (Calculator.calculate_expression A fuel str s)

/-- The relation `Invokes A c c1`: in the course of the call `c`, the body of the function
makes the call `c1`.  One rule per call in the source, under the conditions
on which control reaches it. -/
inductive Invokes (A : DoubleOps D) : Call D → Call D → Prop
  -- `primary`
  | primary_get (n : Nat) (s : State D) :
      Invokes A (.primary (n + 1) s) (.get s)
  | primary_expression (n : Nat) (s s1 : State D) (t : Token D) :
      Token_stream.get A s = .ok (t, s1) → t.kind = '(' →
      Invokes A (.primary (n + 1) s) (.expression n s1)
  | primary_get_rparen (n : Nat) (s s1 s2 : State D) (t : Token D) (d : D) :
      Token_stream.get A s = .ok (t, s1) → t.kind = '(' →
      expression A n s1 = .ok (d, s2) →
      Invokes A (.primary (n + 1) s) (.get s2)
  | primary_minus (n : Nat) (s s1 : State D) (t : Token D) :
      Token_stream.get A s = .ok (t, s1) → t.kind = '-' →
      Invokes A (.primary (n + 1) s) (.primary n s1)
  | primary_plus (n : Nat) (s s1 : State D) (t : Token D) :
      Token_stream.get A s = .ok (t, s1) → t.kind = '+' →
      Invokes A (.primary (n + 1) s) (.primary n s1)
  -- `term`
  | term_primary (n : Nat) (s : State D) :
      Invokes A (.term (n + 1) s) (.primary n s)
  | term_get (n : Nat) (s s1 : State D) (left : D) :
      primary A n s = .ok (left, s1) →
      Invokes A (.term (n + 1) s) (.get s1)
  | term_loop (n : Nat) (s s1 s2 : State D) (left : D) (t : Token D) :
      primary A n s = .ok (left, s1) → Token_stream.get A s1 = .ok (t, s2) →
      Invokes A (.term (n + 1) s) (.termLoop n left t s2)
  -- the loop of `term`
  | termLoop_mul_primary (n : Nat) (left : D) (t : Token D) (s : State D) :
      t.kind = '*' →
      Invokes A (.termLoop (n + 1) left t s) (.primary n s)
  | termLoop_mul_get (n : Nat) (left x : D) (t : Token D) (s s1 : State D) :
      t.kind = '*' → primary A n s = .ok (x, s1) →
      Invokes A (.termLoop (n + 1) left t s) (.get s1)
  | termLoop_mul_loop (n : Nat) (left x : D) (t t1 : Token D) (s s1 s2 : State D) :
      t.kind = '*' → primary A n s = .ok (x, s1) → Token_stream.get A s1 = .ok (t1, s2) →
      Invokes A (.termLoop (n + 1) left t s) (.termLoop n (A.mul left x) t1 s2)
  | termLoop_div_primary (n : Nat) (left : D) (t : Token D) (s : State D) :
      t.kind = '/' →
      Invokes A (.termLoop (n + 1) left t s) (.primary n s)
  | termLoop_div_get (n : Nat) (left d : D) (t : Token D) (s s1 : State D) :
      t.kind = '/' → primary A n s = .ok (d, s1) → A.isZero d = false →
      Invokes A (.termLoop (n + 1) left t s) (.get s1)
  | termLoop_div_loop (n : Nat) (left d : D) (t t1 : Token D) (s s1 s2 : State D) :
      t.kind = '/' → primary A n s = .ok (d, s1) → A.isZero d = false →
      Token_stream.get A s1 = .ok (t1, s2) →
      Invokes A (.termLoop (n + 1) left t s) (.termLoop n (A.div left d) t1 s2)
  | termLoop_mod_term (n : Nat) (left : D) (t : Token D) (s : State D) :
      t.kind = '%' → InIntRange (A.toInt left) →
      Invokes A (.termLoop (n + 1) left t s) (.term n s)
  | termLoop_mod_get (n : Nat) (left x : D) (t : Token D) (s s1 : State D) :
      t.kind = '%' → InIntRange (A.toInt left) → term A n s = .ok (x, s1) →
      InIntRange (A.toInt x) → A.toInt x ≠ 0 →
      InIntRange (Int.tdiv (A.toInt left) (A.toInt x)) →
      Invokes A (.termLoop (n + 1) left t s) (.get s1)
  | termLoop_mod_loop (n : Nat) (left x : D) (t t1 : Token D) (s s1 s2 : State D) :
      t.kind = '%' → InIntRange (A.toInt left) → term A n s = .ok (x, s1) →
      InIntRange (A.toInt x) → A.toInt x ≠ 0 →
      InIntRange (Int.tdiv (A.toInt left) (A.toInt x)) →
      Token_stream.get A s1 = .ok (t1, s2) →
      Invokes A (.termLoop (n + 1) left t s)
        (.termLoop n (A.ofInt (Int.tdiv (A.toInt left) (A.toInt x))) t1 s2)
  | termLoop_putback (n : Nat) (left : D) (t : Token D) (s : State D) :
      t.kind ≠ '*' → t.kind ≠ '/' → t.kind ≠ '%' →
      Invokes A (.termLoop (n + 1) left t s) (.putback t s)
  -- `expression`
  | expression_term (n : Nat) (s : State D) :
      Invokes A (.expression (n + 1) s) (.term n s)
  | expression_get (n : Nat) (s s1 : State D) (left : D) :
      term A n s = .ok (left, s1) →
      Invokes A (.expression (n + 1) s) (.get s1)
  | expression_loop (n : Nat) (s s1 s2 : State D) (left : D) (t : Token D) :
      term A n s = .ok (left, s1) → Token_stream.get A s1 = .ok (t, s2) →
      Invokes A (.expression (n + 1) s) (.expressionLoop n left t s2)
  -- the loop of `expression`
  | expressionLoop_plus_term (n : Nat) (left : D) (t : Token D) (s : State D) :
      t.kind = '+' →
      Invokes A (.expressionLoop (n + 1) left t s) (.term n s)
  | expressionLoop_plus_get (n : Nat) (left x : D) (t : Token D) (s s1 : State D) :
      t.kind = '+' → term A n s = .ok (x, s1) →
      Invokes A (.expressionLoop (n + 1) left t s) (.get s1)
  | expressionLoop_plus_loop (n : Nat) (left x : D) (t t1 : Token D) (s s1 s2 : State D) :
      t.kind = '+' → term A n s = .ok (x, s1) → Token_stream.get A s1 = .ok (t1, s2) →
      Invokes A (.expressionLoop (n + 1) left t s) (.expressionLoop n (A.add left x) t1 s2)
  | expressionLoop_minus_term (n : Nat) (left : D) (t : Token D) (s : State D) :
      t.kind = '-' →
      Invokes A (.expressionLoop (n + 1) left t s) (.term n s)
  | expressionLoop_minus_get (n : Nat) (left x : D) (t : Token D) (s s1 : State D) :
      t.kind = '-' → term A n s = .ok (x, s1) →
      Invokes A (.expressionLoop (n + 1) left t s) (.get s1)
  | expressionLoop_minus_loop (n : Nat) (left x : D) (t t1 : Token D) (s s1 s2 : State D) :
      t.kind = '-' → term A n s = .ok (x, s1) → Token_stream.get A s1 = .ok (t1, s2) →
      Invokes A (.expressionLoop (n + 1) left t s) (.expressionLoop n (A.sub left x) t1 s2)
  | expressionLoop_putback (n : Nat) (left : D) (t : Token D) (s : State D) :
      t.kind ≠ '+' → t.kind ≠ '-' →
      Invokes A (.expressionLoop (n + 1) left t s) (.putback t s)
  -- `calculate_expression`
  | skip_get (n : Nat) (t : Token D) (s : State D) :
      t.kind = ';' →
      Invokes A (.skipTerminators (n + 1) t s) (.get s)
  | skip_loop (n : Nat) (t t1 : Token D) (s s1 : State D) :
      t.kind = ';' → Token_stream.get A s = .ok (t1, s1) →
      Invokes A (.skipTerminators (n + 1) t s) (.skipTerminators n t1 s1)
  | skip_putback (n : Nat) (t : Token D) (s : State D) :
      t.kind ≠ ';' →
      Invokes A (.skipTerminators (n + 1) t s) (.putback t s)
  | skip_expression (n : Nat) (t : Token D) (s s1 : State D) :
      t.kind ≠ ';' → Token_stream.putback t s = .ok s1 →
      Invokes A (.skipTerminators (n + 1) t s) (.expression n s1)
  | calculate_get (fuel : Nat) (str : List Char) (s : State D) :
      Invokes A (.calculate_expression fuel str s) (.get { s with is := ⟨str, false⟩ })
  | calculate_skip (fuel : Nat) (str : List Char) (s s1 : State D) (t : Token D) :
      Token_stream.get A { s with is := ⟨str, false⟩ } = .ok (t, s1) →
      Invokes A (.calculate_expression fuel str s) (.skipTerminators fuel t s1)

/-- The relation `Reaches A c c1`: the call `c1` occurs in the course of the call `c`. -/
def Reaches (A : DoubleOps D) : Call D → Call D → Prop :=
  Relation.ReflTransGen (Invokes A)

/-! ### Predicates used in the statements -/

/-- What a run leaves in the buffer: `b` says whether the buffer is full
after a successful return, and the run does not end in the error of
`putback`. -/
def BufferOk (b : Bool) (r : Res D D) : Prop :=
  match r with
  | .error e => e ≠ .putbackFull
  | .ok (_, s1) => s1.ts.full = b

/-- The calls that need an empty buffer to succeed have one: `putback`, and
the loops, which are entered right after a `get`. -/
def Call.ready : Call D → Prop
  | .putback _ s => s.ts.full = false
  | .termLoop _ _ _ s => s.ts.full = false
  | .expressionLoop _ _ _ s => s.ts.full = false
  | .skipTerminators _ _ s => s.ts.full = false
  | _ => True

/-- Result of a run over the Tokens of a tree: it continues with the value of
the tree, unless a divisor in the tree is zero. -/
def treeResult (A : DoubleOps D) (e : Expr D) (k : D → Res D D) : Res D D :=
  if e.noZeroDivisor A then k (e.value A) else .error .divideByZero

/-- With enough fuel, `primary` consumes the Tokens of `e` and returns its
value. -/
def PrimaryRuns (A : DoubleOps D) (e : Expr D) : Prop :=
  ∃ N, ∀ (s : State D) (σ1 : IStream), Feeds A s (e.toks A) σ1 →
    ∀ n, N ≤ n → ∃ b,
      primary A n s = treeResult A e (fun v => .ok (v, ⟨⟨false, b⟩, σ1⟩))

/-- With enough fuel, `term` consumes the Tokens of `e` and the Token `t`
after them, and reaches its loop with the value of `e` and with `t`. -/
def TermRuns (A : DoubleOps D) (e : Expr D) : Prop :=
  ∃ N k, ∀ (s : State D) (t : Token D) (σ1 : IStream), Feeds A s (e.toks A ++ [t]) σ1 →
    ∀ m, N ≤ m → ∃ b,
      term A (m + k) s = treeResult A e (fun v => termLoop A m v t ⟨⟨false, b⟩, σ1⟩)

/-- With enough fuel, `expression` consumes the Tokens of `e` and the Token
`t` after them, and reaches its loop with the value of `e` and with `t`. -/
def ExpressionRuns (A : DoubleOps D) (e : Expr D) : Prop :=
  ∃ N k, ∀ (s : State D) (t : Token D) (σ1 : IStream),
    t.kind ≠ '*' → t.kind ≠ '/' → t.kind ≠ '%' → Feeds A s (e.toks A ++ [t]) σ1 →
    ∀ m, N ≤ m → ∃ b,
      expression A (m + k) s =
        treeResult A e (fun v => expressionLoop A m v t ⟨⟨false, b⟩, σ1⟩)

/-- The evaluation of `str` on a `Calculator` in state `s` has the outcome
`r`: every run with enough fuel ends in `r`. -/
def Evaluates (A : DoubleOps D) (str : List Char) (s : State D) (r : Except Err D) : Prop :=
  ∃ N, ∀ fuel, N ≤ fuel → outcome (calculate_expression A fuel str s) = r

/-- Successive calls of `Token_stream::get` from state `s` deliver Tokens of
the kinds `ks` and lead to state `s1`. -/
def Pulls (A : DoubleOps D) : State D → List Char → State D → Prop
  | s, [], s1 => s = s1
  | s, k :: ks, s1 => ∃ t s2, Token_stream.get A s = .ok (t, s2) ∧ t.kind = k ∧ Pulls A s2 ks s1

/-- A chain of signs applied to a value: one negation per `-`. -/
def applySigns (A : DoubleOps D) (signs : List Char) (v : D) : D :=
  signs.foldr (fun c x => if c = '-' then A.neg x else x) v

/-- In the course of the call `c`, the loop of `term` stands at a `/` and the
`primary` that follows returns a divisor `d` with `d==0`. -/
def ZeroDivisorIn (A : DoubleOps D) (c : Call D) : Prop :=
  ∃ (n : Nat) (left : D) (t : Token D) (s : State D) (d : D) (s1 : State D),
    Reaches A c (.termLoop (n + 1) left t s) ∧ t.kind = '/' ∧
      primary A n s = .ok (d, s1) ∧ A.isZero d = true

/-! ### Parse trees of the grammar of the source

The grammar that the three functions implement, `%` included:
`expression := term (('+' | '-') term)*`, `term := chain ('%' term)?`,
`chain := primary (('*' | '/') primary)*` and
`primary := number | '(' expression ')' | '-' primary | '+' primary`. -/

/-- Parse trees over all the operators of the source. -/
inductive Ast (D : Type) where
  | num (v : D)
  | paren (e : Ast D)
  | neg (e : Ast D)
  | pos (e : Ast D)
  | add (l r : Ast D)
  | sub (l r : Ast D)
  | mul (l r : Ast D)
  | div (l r : Ast D)
  | mod (l r : Ast D)
deriving DecidableEq, Repr

/-- Level of the root of a tree in the grammar of the source: 0 for a
primary, 1 for a chain of `*` and `/`, 2 for a `%`, 3 for `+` and `-`. -/
def Ast.level : Ast D → Nat
  | .num _ => 0
  | .paren _ => 0
  | .neg _ => 0
  | .pos _ => 0
  | .mul _ _ => 1
  | .div _ _ => 1
  | .mod _ _ => 2
  | .add _ _ => 3
  | .sub _ _ => 3

/-- The tree is a parse tree of the grammar of the source: a sign applies to
a primary; `*` and `/` have a chain on the left and a primary on the right;
`%` has a chain on the left and a whole term on the right; `+` and `-` have
an expression on the left and a term on the right. -/
def Ast.grammatical : Ast D → Bool
  | .num _ => true
  | .paren e => e.grammatical
  | .neg e => e.grammatical && decide (e.level = 0)
  | .pos e => e.grammatical && decide (e.level = 0)
  | .mul l r => l.grammatical && r.grammatical && decide (l.level ≤ 1) && decide (r.level = 0)
  | .div l r => l.grammatical && r.grammatical && decide (l.level ≤ 1) && decide (r.level = 0)
  | .mod l r => l.grammatical && r.grammatical && decide (l.level ≤ 1) && decide (r.level ≤ 2)
  | .add l r => l.grammatical && r.grammatical && decide (r.level ≤ 2)
  | .sub l r => l.grammatical && r.grammatical && decide (r.level ≤ 2)

/-- The Tokens a tree spells, left to right. -/
def Ast.toks (A : DoubleOps D) : Ast D → List (Token D)
  | .num v => [⟨number, v⟩]
  | .paren e => Token.ofChar A '(' :: (e.toks A ++ [Token.ofChar A ')'])
  | .neg e => Token.ofChar A '-' :: e.toks A
  | .pos e => Token.ofChar A '+' :: e.toks A
  | .add l r => l.toks A ++ Token.ofChar A '+' :: r.toks A
  | .sub l r => l.toks A ++ Token.ofChar A '-' :: r.toks A
  | .mul l r => l.toks A ++ Token.ofChar A '*' :: r.toks A
  | .div l r => l.toks A ++ Token.ofChar A '/' :: r.toks A
  | .mod l r => l.toks A ++ Token.ofChar A '%' :: r.toks A

/-- What the operations of the source compute on a tree, operands left to
right: a value, or the error of the first division or `%` whose right operand
is zero.  At `%` it is the operation of the source, `i1/i2` on the two
operands converted to 32-bit `int`, in the order of the source: the left
operand is converted before the right one is evaluated, and a conversion or
a quotient outside the range of `int` is `Err.intUndefined`. -/
def Ast.eval (A : DoubleOps D) : Ast D → Except Err D
  | .num v => .ok v
  | .paren e => e.eval A
  | .neg e =>
    match e.eval A with
    | .error x => .error x
    | .ok v => .ok (A.neg v)
  | .pos e => e.eval A
  | .add l r =>
    match l.eval A with
    | .error x => .error x
    | .ok a =>
      match r.eval A with
      | .error x => .error x
      | .ok b => .ok (A.add a b)
  | .sub l r =>
    match l.eval A with
    | .error x => .error x
    | .ok a =>
      match r.eval A with
      | .error x => .error x
      | .ok b => .ok (A.sub a b)
  | .mul l r =>
    match l.eval A with
    | .error x => .error x
    | .ok a =>
      match r.eval A with
      | .error x => .error x
      | .ok b => .ok (A.mul a b)
  | .div l r =>
    match l.eval A with
    | .error x => .error x
    | .ok a =>
      match r.eval A with
      | .error x => .error x
      | .ok d => if A.isZero d then .error .divideByZero else .ok (A.div a d)
  | .mod l r =>
    match l.eval A with
    | .error x => .error x
    | .ok a =>
      if ¬ InIntRange (A.toInt a) then .error .intUndefined
      else
        match r.eval A with
        | .error x => .error x
        | .ok b =>
          if ¬ InIntRange (A.toInt b) then .error .intUndefined
          else if A.toInt b = 0 then .error .modDivideByZero
          else if ¬ InIntRange (Int.tdiv (A.toInt a) (A.toInt b)) then .error .intUndefined
          else .ok (A.ofInt (Int.tdiv (A.toInt a) (A.toInt b)))

/-- A run over the Tokens of a tree continues with what the tree evaluates
to, or ends in the error of the tree. -/
def Ast.run (A : DoubleOps D) (e : Ast D) (k : D → Res D D) : Res D D :=
  match e.eval A with
  | .error x => .error x
  | .ok v => k v

/-- With enough fuel, `primary` consumes the Tokens of the tree. -/
def PrimaryParses (A : DoubleOps D) (e : Ast D) : Prop :=
  ∃ N, ∀ (s : State D) (σ1 : IStream), Feeds A s (e.toks A) σ1 →
    ∀ n, N ≤ n → ∃ b, primary A n s = e.run A (fun v => .ok (v, ⟨⟨false, b⟩, σ1⟩))

/-- With enough fuel, `term` consumes the Tokens of the chain `e` and the
Token `t` after them, and reaches its loop with the value of `e` and `t`. -/
def ChainParses (A : DoubleOps D) (e : Ast D) : Prop :=
  ∃ N k, ∀ (s : State D) (t : Token D) (σ1 : IStream), Feeds A s (e.toks A ++ [t]) σ1 →
    ∀ m, N ≤ m → ∃ b,
      term A (m + k) s = e.run A (fun v => termLoop A m v t ⟨⟨false, b⟩, σ1⟩)

/-- With enough fuel, `term` consumes the Tokens of the term `e`, reads the
Token `t` after them, which is none of `* / %`, and pushes it back. -/
def TermParses (A : DoubleOps D) (e : Ast D) : Prop :=
  ∃ N, ∀ (s : State D) (t : Token D) (σ1 : IStream),
    t.kind ≠ '*' → t.kind ≠ '/' → t.kind ≠ '%' → Feeds A s (e.toks A ++ [t]) σ1 →
    ∀ n, N ≤ n → term A n s = e.run A (fun v => .ok (v, ⟨⟨true, t⟩, σ1⟩))

/-- With enough fuel, `expression` consumes the Tokens of `e` and the Token
`t` after them, and reaches its loop with the value of `e` and `t`. -/
def ExpressionParses (A : DoubleOps D) (e : Ast D) : Prop :=
  ∃ N k, ∀ (s : State D) (t : Token D) (σ1 : IStream),
    t.kind ≠ '*' → t.kind ≠ '/' → t.kind ≠ '%' → Feeds A s (e.toks A ++ [t]) σ1 →
    ∀ m, N ≤ m → ∃ b,
      expression A (m + k) s = e.run A (fun v => expressionLoop A m v t ⟨⟨false, b⟩, σ1⟩)

/-! ### Inputs that are read as the same Tokens -/

/-- The relation `R` between streams is kept by the lexer: related streams
give the same lexical error, or the same Token and related streams again. -/
def TokenBisim (A : DoubleOps D) (R : IStream → IStream → Prop) : Prop :=
  ∀ σ σ1 : IStream, R σ σ1 →
    (∀ e, lexToken A σ = .error e → lexToken A σ1 = .error e) ∧
    (∀ t σ2, lexToken A σ = .ok (t, σ2) → ∃ σ3, lexToken A σ1 = .ok (t, σ3) ∧ R σ2 σ3)

/-- The two streams are read as the same Tokens, one after the other, up to
the same lexical error if there is one. -/
def LexAlike (A : DoubleOps D) (σ σ1 : IStream) : Prop :=
  ∃ R : IStream → IStream → Prop, TokenBisim A R ∧ R σ σ1

/-- Two states with the same buffer and related streams. -/
def StateAlike (R : IStream → IStream → Prop) (s s1 : State D) : Prop :=
  s.ts = s1.ts ∧ R s.is s1.is

/-- Two results that are the same error, or the same value in states with
the same buffer and related streams. -/
def ResAlike {α : Type} (R : IStream → IStream → Prop) (r r1 : Res D α) : Prop :=
  (∃ e, r = .error e ∧ r1 = .error e) ∨
    ∃ (v : α) (s s1 : State D), r = .ok (v, s) ∧ r1 = .ok (v, s1) ∧ StateAlike R s s1

/-! # Theorems -/

variable {D : Type}

/-! ## The range of `int` -/

theorem inIntRange_zero : InIntRange 0 := by
  unfold InIntRange intMin intMax; omega

/-! ## The pushback buffer -/

theorem get_of_full (A : DoubleOps D) (s : State D) (h : s.ts.full = true) :
    Token_stream.get A s = .ok (s.ts.buffer, ⟨⟨false, s.ts.buffer⟩, s.is⟩) := by
  simp [Token_stream.get, h]

theorem get_ok_full (A : DoubleOps D) {s s1 : State D} {t : Token D}
    (h : Token_stream.get A s = .ok (t, s1)) : s1.ts.full = false := by
  unfold Token_stream.get at h
  split at h
  · cases h; rfl
  · split at h
    · cases h
    · split at h
      · cases h; simp_all
      · split at h
        · cases h; simp_all
        · cases h

theorem get_ne_putbackFull (A : DoubleOps D) (s : State D) :
    Token_stream.get A s ≠ .error .putbackFull := by
  unfold Token_stream.get
  split
  · simp
  · split
    · simp
    · split
      · simp
      · split <;> simp

theorem putback_of_empty (t : Token D) (s : State D) (h : s.ts.full = false) :
    Token_stream.putback t s = .ok ⟨⟨true, t⟩, s.is⟩ := by
  simp [Token_stream.putback, h]

@[simp]
theorem bufferOk_error (b : Bool) (e : Err) :
    BufferOk b (.error e : Res D D) ↔ e ≠ .putbackFull := Iff.rfl

@[simp]
theorem bufferOk_ok (b : Bool) (v : D) (s : State D) :
    BufferOk b (.ok (v, s) : Res D D) ↔ s.ts.full = b := Iff.rfl

theorem bufferOk_all (A : DoubleOps D) (n : Nat) :
    (∀ s : State D, BufferOk false (primary A n s)) ∧
    (∀ s : State D, BufferOk true (term A n s)) ∧
    (∀ (left : D) (t : Token D) (s : State D), s.ts.full = false →
      BufferOk true (termLoop A n left t s)) ∧
    (∀ s : State D, BufferOk true (expression A n s)) ∧
    (∀ (left : D) (t : Token D) (s : State D), s.ts.full = false →
      BufferOk true (expressionLoop A n left t s)) := by
  induction n with
  | zero => simp [primary, term, termLoop, expression, expressionLoop]
  | succ n ih =>
    obtain ⟨ihP, ihT, ihTL, ihE, ihEL⟩ := ih
    refine ⟨?_, ?_, ?_, ?_, ?_⟩
    · intro s
      unfold primary
      cases hg : Token_stream.get A s with
      | error e => simpa [hg] using get_ne_putbackFull A s
      | ok p =>
        obtain ⟨t, s1⟩ := p
        have hf := get_ok_full A hg
        simp only []
        split
        · have h1 := ihE s1
          cases he : expression A n s1 with
          | error e => simpa [he] using h1
          | ok q =>
            obtain ⟨d, s2⟩ := q
            simp only []
            cases hg2 : Token_stream.get A s2 with
            | error e => simpa [hg2] using get_ne_putbackFull A s2
            | ok q2 =>
              obtain ⟨t1, s3⟩ := q2
              simp only []
              split
              · simp
              · simpa using get_ok_full A hg2
        · split
          · simpa using hf
          · split
            · have h1 := ihP s1
              cases hp : primary A n s1 with
              | error e => simpa [hp] using h1
              | ok q =>
                obtain ⟨x, s2⟩ := q
                simpa [hp] using h1
            · split
              · exact ihP s1
              · simp
    · intro s
      unfold term
      have h1 := ihP s
      cases hp : primary A n s with
      | error e => simpa [hp] using h1
      | ok q =>
        obtain ⟨left, s1⟩ := q
        simp only []
        cases hg : Token_stream.get A s1 with
        | error e => simpa [hg] using get_ne_putbackFull A s1
        | ok q2 =>
          obtain ⟨t, s2⟩ := q2
          exact ihTL left t s2 (get_ok_full A hg)
    · intro left t s hs
      unfold termLoop
      split
      · have h1 := ihP s
        cases hp : primary A n s with
        | error e => simpa [hp] using h1
        | ok q =>
          obtain ⟨x, s1⟩ := q
          simp only []
          cases hg : Token_stream.get A s1 with
          | error e => simpa [hg] using get_ne_putbackFull A s1
          | ok q2 =>
            obtain ⟨t1, s2⟩ := q2
            exact ihTL _ t1 s2 (get_ok_full A hg)
      · split
        · have h1 := ihP s
          cases hp : primary A n s with
          | error e => simpa [hp] using h1
          | ok q =>
            obtain ⟨x, s1⟩ := q
            simp only []
            split
            · simp
            · cases hg : Token_stream.get A s1 with
              | error e => simpa [hg] using get_ne_putbackFull A s1
              | ok q2 =>
                obtain ⟨t1, s2⟩ := q2
                exact ihTL _ t1 s2 (get_ok_full A hg)
        · split
          · by_cases h1r : InIntRange (A.toInt left)
            · have h1 := ihT s
              cases hp : term A n s with
              | error e => simpa [hp, h1r] using h1
              | ok q =>
                obtain ⟨x, s1⟩ := q
                by_cases h2r : InIntRange (A.toInt x)
                · by_cases hz : A.toInt x = 0
                  · simp [h1r, hz, inIntRange_zero]
                  · by_cases hq : InIntRange (Int.tdiv (A.toInt left) (A.toInt x))
                    · cases hg : Token_stream.get A s1 with
                      | error e => simpa [hg, h1r, h2r, hz, hq] using get_ne_putbackFull A s1
                      | ok q2 =>
                        obtain ⟨t1, s2⟩ := q2
                        simpa [hg, h1r, h2r, hz, hq] using ihTL _ t1 s2 (get_ok_full A hg)
                    · simp [h1r, h2r, hz, hq]
                · simp [h1r, h2r]
            · simp [h1r]
          · simp [putback_of_empty t s hs]
    · intro s
      unfold expression
      have h1 := ihT s
      cases hp : term A n s with
      | error e => simpa [hp] using h1
      | ok q =>
        obtain ⟨left, s1⟩ := q
        simp only []
        cases hg : Token_stream.get A s1 with
        | error e => simpa [hg] using get_ne_putbackFull A s1
        | ok q2 =>
          obtain ⟨t, s2⟩ := q2
          exact ihEL left t s2 (get_ok_full A hg)
    · intro left t s hs
      unfold expressionLoop
      split
      · have h1 := ihT s
        cases hp : term A n s with
        | error e => simpa [hp] using h1
        | ok q =>
          obtain ⟨x, s1⟩ := q
          simp only []
          cases hg : Token_stream.get A s1 with
          | error e => simpa [hg] using get_ne_putbackFull A s1
          | ok q2 =>
            obtain ⟨t1, s2⟩ := q2
            exact ihEL _ t1 s2 (get_ok_full A hg)
      · split
        · have h1 := ihT s
          cases hp : term A n s with
          | error e => simpa [hp] using h1
          | ok q =>
            obtain ⟨x, s1⟩ := q
            simp only []
            cases hg : Token_stream.get A s1 with
            | error e => simpa [hg] using get_ne_putbackFull A s1
            | ok q2 =>
              obtain ⟨t1, s2⟩ := q2
              exact ihEL _ t1 s2 (get_ok_full A hg)
        · simp [putback_of_empty t s hs]

theorem bufferOk_skipTerminators (A : DoubleOps D) (n : Nat) :
    ∀ (t : Token D) (s : State D), s.ts.full = false →
      BufferOk true (skipTerminators A n t s) := by
  induction n with
  | zero => intro t s _; simp [skipTerminators]
  | succ n ih =>
    intro t s hs
    unfold skipTerminators
    split
    · cases hg : Token_stream.get A s with
      | error e => simpa [hg] using get_ne_putbackFull A s
      | ok q =>
        obtain ⟨t1, s1⟩ := q
        exact ih t1 s1 (get_ok_full A hg)
    · simp only [putback_of_empty t s hs]
      exact (bufferOk_all A n).2.2.2.1 _

theorem bufferOk_calculate_expression (A : DoubleOps D) (fuel : Nat) (str : List Char)
    (s : State D) : BufferOk true (calculate_expression A fuel str s) := by
  unfold calculate_expression
  cases hg : Token_stream.get A { s with is := ⟨str, false⟩ } with
  | error e =>
    have h1 := get_ne_putbackFull A { s with is := ⟨str, false⟩ }
    rw [hg] at h1
    simpa using h1
  | ok q =>
    obtain ⟨t, s1⟩ := q
    exact bufferOk_skipTerminators A fuel t s1 (get_ok_full A hg)

/-! ## Lexing -/

theorem get_of_empty (A : DoubleOps D) (b : Token D) (σ : IStream) :
    Token_stream.get A ⟨⟨false, b⟩, σ⟩ =
      match lexToken A σ with
      | .error e => .error e
      | .ok (t, σ1) => .ok (t, ⟨⟨false, b⟩, σ1⟩) := by
  unfold lexToken Token_stream.get
  simp only [Token_stream.init]
  cases h : σ.getChar with
  | none => simp
  | some p =>
    obtain ⟨ch, is1⟩ := p
    by_cases h1 : isPunct ch = true
    · simp [h1]
    · by_cases h2 : isNumStart ch = true
      · simp [h1, h2]
      · simp [h1, h2]

theorem get_of_lexToken (A : DoubleOps D) (b : Token D) {σ σ1 : IStream} {t : Token D}
    (h : lexToken A σ = .ok (t, σ1)) :
    Token_stream.get A ⟨⟨false, b⟩, σ⟩ = .ok (t, ⟨⟨false, b⟩, σ1⟩) := by
  rw [get_of_empty, h]

theorem lexes_append (A : DoubleOps D) (l1 l2 : List (Token D)) :
    ∀ σ σ1 : IStream, Lexes A σ (l1 ++ l2) σ1 ↔ ∃ σ2, Lexes A σ l1 σ2 ∧ Lexes A σ2 l2 σ1 := by
  induction l1 with
  | nil => intro σ σ1; simp [Lexes]
  | cons t l ih =>
    intro σ σ1
    constructor
    · intro h
      obtain ⟨σ2, h1, h2⟩ : ∃ σ2, lexToken A σ = .ok (t, σ2) ∧ Lexes A σ2 (l ++ l2) σ1 := h
      obtain ⟨σ3, h3, h4⟩ := (ih σ2 σ1).1 h2
      exact ⟨σ3, ⟨σ2, h1, h3⟩, h4⟩
    · rintro ⟨σ3, ⟨σ2, h1, h2⟩, h3⟩
      exact ⟨σ2, h1, (ih σ2 σ1).2 ⟨σ3, h2, h3⟩⟩

theorem feeds_of_empty (A : DoubleOps D) (b : Token D) (σ σ1 : IStream) (l : List (Token D)) :
    Feeds A ⟨⟨false, b⟩, σ⟩ l σ1 ↔ Lexes A σ l σ1 := by
  simp [Feeds]

theorem feeds_of_full (A : DoubleOps D) (t : Token D) (σ σ1 : IStream) (l : List (Token D)) :
    Feeds A ⟨⟨true, t⟩, σ⟩ (t :: l) σ1 ↔ Lexes A σ l σ1 := by
  simp [Feeds]

theorem feeds_cons (A : DoubleOps D) {s : State D} {t : Token D} {l : List (Token D)}
    {σ1 : IStream} (h : Feeds A s (t :: l) σ1) :
    ∃ b σ2, Token_stream.get A s = .ok (t, ⟨⟨false, b⟩, σ2⟩) ∧ Lexes A σ2 l σ1 := by
  obtain ⟨⟨full, buf⟩, σ⟩ := s
  cases full with
  | true =>
    simp only [Feeds, if_true] at h
    obtain ⟨l1, h1, h2⟩ := h
    cases h1
    exact ⟨t, σ, by simp [Token_stream.get], h2⟩
  | false =>
    simp only [Feeds, Lexes] at h
    obtain ⟨σ2, h1, h2⟩ := by simpa using h
    exact ⟨buf, σ2, get_of_lexToken A buf h1, h2⟩

theorem feeds_append (A : DoubleOps D) {s : State D} {l1 l2 : List (Token D)}
    {σ1 : IStream} (hne : l1 ≠ []) (h : Feeds A s (l1 ++ l2) σ1) :
    ∃ σ2, Feeds A s l1 σ2 ∧ Lexes A σ2 l2 σ1 := by
  obtain ⟨⟨full, buf⟩, σ⟩ := s
  cases l1 with
  | nil => exact absurd rfl hne
  | cons t l =>
    cases full with
    | true =>
      simp only [Feeds, if_true, List.cons_append] at h
      obtain ⟨l3, h1, h2⟩ := h
      simp only [List.cons.injEq] at h1
      obtain ⟨rfl, rfl⟩ := h1
      obtain ⟨σ2, h3, h4⟩ := (lexes_append A l l2 σ σ1).1 h2
      exact ⟨σ2, by simp [Feeds, h3], h4⟩
    | false =>
      have h' : Lexes A σ ((t :: l) ++ l2) σ1 := by simpa [Feeds] using h
      obtain ⟨σ2, h3, h4⟩ := (lexes_append A (t :: l) l2 σ σ1).1 h'
      exact ⟨σ2, by simpa [Feeds] using h3, h4⟩

theorem toks_ne_nil (A : DoubleOps D) (e : Expr D) : e.toks A ≠ [] := by
  cases e <;> simp [Expr.toks]

theorem lexes_single (A : DoubleOps D) {σ σ1 : IStream} {t : Token D}
    (h : Lexes A σ [t] σ1) : lexToken A σ = .ok (t, σ1) := by
  obtain ⟨σ2, h1, h2⟩ := h
  cases h2
  exact h1

theorem termRuns_of_primaryRuns (A : DoubleOps D) (e : Expr D) (h : PrimaryRuns A e) :
    TermRuns A e := by
  obtain ⟨N, hN⟩ := h
  refine ⟨N, 1, fun s t σ1 hf m hm => ?_⟩
  obtain ⟨σ2, hf1, hl⟩ := feeds_append A (toks_ne_nil A e) hf
  have hl := lexes_single A hl
  obtain ⟨b, hb⟩ := hN s σ2 hf1 m hm
  refine ⟨b, ?_⟩
  rw [term, hb]
  unfold treeResult
  by_cases hz : e.noZeroDivisor A = true
  · simp [hz, get_of_lexToken A b hl]
  · simp [hz]

theorem termLoop_done (A : DoubleOps D) (n : Nat) (left : D) (t b : Token D) (σ : IStream)
    (h1 : t.kind ≠ '*') (h2 : t.kind ≠ '/') (h3 : t.kind ≠ '%') :
    termLoop A (n + 1) left t ⟨⟨false, b⟩, σ⟩ = .ok (left, ⟨⟨true, t⟩, σ⟩) := by
  rw [termLoop]
  simp [h1, h2, h3, Token_stream.putback]

theorem expressionLoop_done (A : DoubleOps D) (n : Nat) (left : D) (t b : Token D)
    (σ : IStream) (h1 : t.kind ≠ '+') (h2 : t.kind ≠ '-') :
    expressionLoop A (n + 1) left t ⟨⟨false, b⟩, σ⟩ = .ok (left, ⟨⟨true, t⟩, σ⟩) := by
  rw [expressionLoop]
  simp [h1, h2, Token_stream.putback]

theorem term_result (A : DoubleOps D) (e : Expr D) (h : TermRuns A e) :
    ∃ N, ∀ (s : State D) (t : Token D) (σ1 : IStream),
      t.kind ≠ '*' → t.kind ≠ '/' → t.kind ≠ '%' → Feeds A s (e.toks A ++ [t]) σ1 →
      ∀ n, N ≤ n →
        term A n s = treeResult A e (fun v => .ok (v, ⟨⟨true, t⟩, σ1⟩)) := by
  obtain ⟨N, k, hN⟩ := h
  refine ⟨N + 1 + k, fun s t σ1 h1 h2 h3 hf n hn => ?_⟩
  obtain ⟨m, rfl⟩ : ∃ m, n = (m + 1) + k := ⟨n - k - 1, by omega⟩
  obtain ⟨b, hb⟩ := hN s t σ1 hf (m + 1) (by omega)
  rw [hb]
  unfold treeResult
  by_cases hz : e.noZeroDivisor A = true
  · simp [hz, termLoop_done A m _ t b σ1 h1 h2 h3]
  · simp [hz]

theorem expressionRuns_of_termRuns (A : DoubleOps D) (e : Expr D) (h : TermRuns A e) :
    ExpressionRuns A e := by
  obtain ⟨N, hN⟩ := term_result A e h
  refine ⟨N, 1, fun s t σ1 h1 h2 h3 hf m hm => ⟨t, ?_⟩⟩
  rw [expression, hN s t σ1 h1 h2 h3 hf m hm]
  unfold treeResult
  by_cases hz : e.noZeroDivisor A = true
  · simp [hz, Token_stream.get]
  · simp [hz]

theorem expression_result (A : DoubleOps D) (e : Expr D) (h : ExpressionRuns A e) :
    ∃ N, ∀ (s : State D) (t : Token D) (σ1 : IStream),
      t.kind ≠ '*' → t.kind ≠ '/' → t.kind ≠ '%' → t.kind ≠ '+' → t.kind ≠ '-' →
      Feeds A s (e.toks A ++ [t]) σ1 →
      ∀ n, N ≤ n →
        expression A n s = treeResult A e (fun v => .ok (v, ⟨⟨true, t⟩, σ1⟩)) := by
  obtain ⟨N, k, hN⟩ := h
  refine ⟨N + 1 + k, fun s t σ1 h1 h2 h3 h4 h5 hf n hn => ?_⟩
  obtain ⟨m, rfl⟩ : ∃ m, n = (m + 1) + k := ⟨n - k - 1, by omega⟩
  obtain ⟨b, hb⟩ := hN s t σ1 h1 h2 h3 hf (m + 1) (by omega)
  rw [hb]
  unfold treeResult
  by_cases hz : e.noZeroDivisor A = true
  · simp [hz, expressionLoop_done A m _ t b σ1 h4 h5]
  · simp [hz]

theorem primaryRuns_num (A : DoubleOps D) (v : D) : PrimaryRuns A (.num v) := by
  refine ⟨1, fun s σ1 hf n hn => ?_⟩
  obtain ⟨b, σ2, hg, hl⟩ := feeds_cons A hf
  cases hl
  refine ⟨b, ?_⟩
  obtain ⟨m, rfl⟩ : ∃ m, n = m + 1 := ⟨n - 1, by omega⟩
  rw [primary, hg]
  simp [treeResult, Expr.noZeroDivisor, Expr.value, number]

theorem primaryRuns_paren (A : DoubleOps D) (e : Expr D) (h : ExpressionRuns A e) :
    PrimaryRuns A (.paren e) := by
  obtain ⟨N, hN⟩ := expression_result A e h
  refine ⟨N + 1, fun s σ1 hf n hn => ⟨Token.ofChar A ')', ?_⟩⟩
  obtain ⟨b, σ2, hg, hl⟩ := feeds_cons A hf
  have hf1 : Feeds A ⟨⟨false, b⟩, σ2⟩ (e.toks A ++ [Token.ofChar A ')']) σ1 :=
    (feeds_of_empty A b σ2 σ1 _).2 hl
  obtain ⟨m, rfl⟩ : ∃ m, n = m + 1 := ⟨n - 1, by omega⟩
  have hN := hN _ (Token.ofChar A ')') σ1
    (by simp [Token.ofChar]) (by simp [Token.ofChar]) (by simp [Token.ofChar])
    (by simp [Token.ofChar]) (by simp [Token.ofChar]) hf1 m (by omega)
  rw [primary, hg]
  simp only [Token.ofChar, if_true]
  simp only [Token.ofChar] at hN
  rw [hN]
  unfold treeResult
  by_cases hz : e.noZeroDivisor A = true
  · simp [hz, Expr.noZeroDivisor, Expr.value, Token_stream.get]
  · simp [hz, Expr.noZeroDivisor]

theorem primaryRuns_neg (A : DoubleOps D) (e : Expr D) (h : PrimaryRuns A e) :
    PrimaryRuns A (.neg e) := by
  obtain ⟨N, hN⟩ := h
  refine ⟨N + 1, fun s σ1 hf n hn => ?_⟩
  obtain ⟨b, σ2, hg, hl⟩ := feeds_cons A hf
  obtain ⟨m, rfl⟩ : ∃ m, n = m + 1 := ⟨n - 1, by omega⟩
  obtain ⟨b1, hb1⟩ := hN ⟨⟨false, b⟩, σ2⟩ σ1 ((feeds_of_empty A b σ2 σ1 _).2 hl) m (by omega)
  refine ⟨b1, ?_⟩
  rw [primary, hg]
  simp only [Token.ofChar, number]
  rw [hb1]
  unfold treeResult
  by_cases hz : e.noZeroDivisor A = true
  · simp [hz, Expr.noZeroDivisor, Expr.value]
  · simp [hz, Expr.noZeroDivisor]

theorem primaryRuns_pos (A : DoubleOps D) (e : Expr D) (h : PrimaryRuns A e) :
    PrimaryRuns A (.pos e) := by
  obtain ⟨N, hN⟩ := h
  refine ⟨N + 1, fun s σ1 hf n hn => ?_⟩
  obtain ⟨b, σ2, hg, hl⟩ := feeds_cons A hf
  obtain ⟨m, rfl⟩ : ∃ m, n = m + 1 := ⟨n - 1, by omega⟩
  obtain ⟨b1, hb1⟩ := hN ⟨⟨false, b⟩, σ2⟩ σ1 ((feeds_of_empty A b σ2 σ1 _).2 hl) m (by omega)
  refine ⟨b1, ?_⟩
  rw [primary, hg]
  simp only [Token.ofChar, number]
  rw [hb1]
  unfold treeResult
  by_cases hz : e.noZeroDivisor A = true
  · simp [hz, Expr.noZeroDivisor, Expr.value]
  · simp [hz, Expr.noZeroDivisor]

/-- Splits the Tokens of a binary node, followed by one more Token. -/
theorem feeds_binary (A : DoubleOps D) {s : State D} {l r : Expr D} {op t : Token D}
    {σ1 : IStream} (hf : Feeds A s ((l.toks A ++ op :: r.toks A) ++ [t]) σ1) :
    ∃ σ2 σ3, Feeds A s (l.toks A ++ [op]) σ2 ∧ Lexes A σ2 (r.toks A) σ3 ∧
      lexToken A σ3 = .ok (t, σ1) := by
  have e1 : (l.toks A ++ op :: r.toks A) ++ [t] = (l.toks A ++ [op]) ++ (r.toks A ++ [t]) := by
    simp
  rw [e1] at hf
  obtain ⟨σ2, h1, h2⟩ := feeds_append A (by simp) hf
  obtain ⟨σ3, h3, h4⟩ := (lexes_append A _ _ σ2 σ1).1 h2
  exact ⟨σ2, σ3, h1, h3, lexes_single A h4⟩

theorem termRuns_mul (A : DoubleOps D) (l r : Expr D) (hl : TermRuns A l)
    (hr : PrimaryRuns A r) : TermRuns A (.mul l r) := by
  obtain ⟨Nl, kl, hNl⟩ := hl
  obtain ⟨Nr, hNr⟩ := hr
  refine ⟨max Nl Nr, kl + 1, fun s t σ1 hf m hm => ?_⟩
  obtain ⟨σ2, σ3, h1, h2, h3⟩ := feeds_binary A hf
  obtain ⟨b1, hb1⟩ := hNl s _ σ2 h1 (m + 1) (by omega)
  obtain ⟨b2, hb2⟩ := hNr ⟨⟨false, b1⟩, σ2⟩ σ3 ((feeds_of_empty A b1 σ2 σ3 _).2 h2) m
    (by omega)
  refine ⟨b2, ?_⟩
  have e1 : m + (kl + 1) = m + 1 + kl := by omega
  rw [e1, hb1]
  unfold treeResult at hb2 ⊢
  by_cases hzl : l.noZeroDivisor A = true
  · simp only [hzl, if_true]
    rw [termLoop]
    simp only [Token.ofChar, if_true]
    rw [hb2]
    by_cases hzr : r.noZeroDivisor A = true
    · simp [hzl, hzr, Expr.noZeroDivisor, Expr.value, get_of_lexToken A b2 h3]
    · simp [hzl, hzr, Expr.noZeroDivisor]
  · simp [hzl, Expr.noZeroDivisor]

theorem termRuns_div (A : DoubleOps D) (l r : Expr D) (hl : TermRuns A l)
    (hr : PrimaryRuns A r) : TermRuns A (.div l r) := by
  obtain ⟨Nl, kl, hNl⟩ := hl
  obtain ⟨Nr, hNr⟩ := hr
  refine ⟨max Nl Nr, kl + 1, fun s t σ1 hf m hm => ?_⟩
  obtain ⟨σ2, σ3, h1, h2, h3⟩ := feeds_binary A hf
  obtain ⟨b1, hb1⟩ := hNl s _ σ2 h1 (m + 1) (by omega)
  obtain ⟨b2, hb2⟩ := hNr ⟨⟨false, b1⟩, σ2⟩ σ3 ((feeds_of_empty A b1 σ2 σ3 _).2 h2) m
    (by omega)
  refine ⟨b2, ?_⟩
  have e1 : m + (kl + 1) = m + 1 + kl := by omega
  rw [e1, hb1]
  unfold treeResult at hb2 ⊢
  by_cases hzl : l.noZeroDivisor A = true
  · simp only [hzl, if_true]
    rw [termLoop]
    simp only [Token.ofChar, if_true]
    rw [hb2]
    by_cases hzr : r.noZeroDivisor A = true
    · by_cases hz : A.isZero (r.value A) = true
      · simp [hzl, hzr, hz, Expr.noZeroDivisor]
      · simp [hzl, hzr, hz, Expr.noZeroDivisor, Expr.value, get_of_lexToken A b2 h3]
    · simp [hzl, hzr, Expr.noZeroDivisor]
  · simp [hzl, Expr.noZeroDivisor]

theorem expressionRuns_add (A : DoubleOps D) (l r : Expr D) (hl : ExpressionRuns A l)
    (hr : TermRuns A r) : ExpressionRuns A (.add l r) := by
  obtain ⟨Nl, kl, hNl⟩ := hl
  obtain ⟨Nr, hNr⟩ := term_result A r hr
  refine ⟨max Nl Nr, kl + 1, fun s t σ1 t1 t2 t3 hf m hm => ⟨t, ?_⟩⟩
  obtain ⟨σ2, σ3, h1, h2, h3⟩ := feeds_binary A hf
  obtain ⟨b1, hb1⟩ := hNl s (Token.ofChar A '+') σ2 (by simp [Token.ofChar])
    (by simp [Token.ofChar]) (by simp [Token.ofChar]) h1 (m + 1) (by omega)
  have hf2 : Feeds A ⟨⟨false, b1⟩, σ2⟩ (r.toks A ++ [t]) σ1 := by
    rw [feeds_of_empty, lexes_append]
    exact ⟨σ3, h2, σ1, h3, rfl⟩
  have hb2 := hNr ⟨⟨false, b1⟩, σ2⟩ t σ1 t1 t2 t3 hf2 m (by omega)
  have e1 : m + (kl + 1) = m + 1 + kl := by omega
  rw [e1, hb1]
  unfold treeResult at hb2 ⊢
  by_cases hzl : l.noZeroDivisor A = true
  · simp only [hzl, if_true]
    rw [expressionLoop]
    simp only [Token.ofChar, if_true]
    rw [hb2]
    by_cases hzr : r.noZeroDivisor A = true
    · simp [hzl, hzr, Expr.noZeroDivisor, Expr.value, Token_stream.get]
    · simp [hzl, hzr, Expr.noZeroDivisor]
  · simp [hzl, Expr.noZeroDivisor]

theorem expressionRuns_sub (A : DoubleOps D) (l r : Expr D) (hl : ExpressionRuns A l)
    (hr : TermRuns A r) : ExpressionRuns A (.sub l r) := by
  obtain ⟨Nl, kl, hNl⟩ := hl
  obtain ⟨Nr, hNr⟩ := term_result A r hr
  refine ⟨max Nl Nr, kl + 1, fun s t σ1 t1 t2 t3 hf m hm => ⟨t, ?_⟩⟩
  obtain ⟨σ2, σ3, h1, h2, h3⟩ := feeds_binary A hf
  obtain ⟨b1, hb1⟩ := hNl s (Token.ofChar A '-') σ2 (by simp [Token.ofChar])
    (by simp [Token.ofChar]) (by simp [Token.ofChar]) h1 (m + 1) (by omega)
  have hf2 : Feeds A ⟨⟨false, b1⟩, σ2⟩ (r.toks A ++ [t]) σ1 := by
    rw [feeds_of_empty, lexes_append]
    exact ⟨σ3, h2, σ1, h3, rfl⟩
  have hb2 := hNr ⟨⟨false, b1⟩, σ2⟩ t σ1 t1 t2 t3 hf2 m (by omega)
  have e1 : m + (kl + 1) = m + 1 + kl := by omega
  rw [e1, hb1]
  unfold treeResult at hb2 ⊢
  by_cases hzl : l.noZeroDivisor A = true
  · simp only [hzl, if_true]
    rw [expressionLoop]
    simp only [Token.ofChar]
    rw [hb2]
    by_cases hzr : r.noZeroDivisor A = true
    · simp [hzl, hzr, Expr.noZeroDivisor, Expr.value, Token_stream.get]
    · simp [hzl, hzr, Expr.noZeroDivisor]
  · simp [hzl, Expr.noZeroDivisor]

/-- On the Tokens of a conventional parse tree, each level of the evaluator
consumes exactly the Tokens of the tree and computes its value. -/
theorem runs_of_conventional (A : DoubleOps D) (e : Expr D) :
    e.conventional = true →
      (e.level = 0 → PrimaryRuns A e) ∧ (e.level ≤ 1 → TermRuns A e) ∧
        ExpressionRuns A e := by
  induction e with
  | num v =>
    intro _
    have hp := primaryRuns_num A v
    have ht := termRuns_of_primaryRuns A _ hp
    exact ⟨fun _ => hp, fun _ => ht, expressionRuns_of_termRuns A _ ht⟩
  | paren e ih =>
    intro hc
    have hp := primaryRuns_paren A e (ih (by simpa [Expr.conventional] using hc)).2.2
    have ht := termRuns_of_primaryRuns A _ hp
    exact ⟨fun _ => hp, fun _ => ht, expressionRuns_of_termRuns A _ ht⟩
  | neg e ih =>
    intro hc
    simp only [Expr.conventional, Bool.and_eq_true, decide_eq_true_eq] at hc
    have hp := primaryRuns_neg A e ((ih hc.1).1 hc.2)
    have ht := termRuns_of_primaryRuns A _ hp
    exact ⟨fun _ => hp, fun _ => ht, expressionRuns_of_termRuns A _ ht⟩
  | pos e ih =>
    intro hc
    simp only [Expr.conventional, Bool.and_eq_true, decide_eq_true_eq] at hc
    have hp := primaryRuns_pos A e ((ih hc.1).1 hc.2)
    have ht := termRuns_of_primaryRuns A _ hp
    exact ⟨fun _ => hp, fun _ => ht, expressionRuns_of_termRuns A _ ht⟩
  | add l r ihl ihr =>
    intro hc
    simp only [Expr.conventional, Bool.and_eq_true, decide_eq_true_eq] at hc
    refine ⟨fun h => by simp [Expr.level] at h, fun h => by simp [Expr.level] at h, ?_⟩
    exact expressionRuns_add A l r (ihl hc.1.1).2.2 ((ihr hc.1.2).2.1 hc.2)
  | sub l r ihl ihr =>
    intro hc
    simp only [Expr.conventional, Bool.and_eq_true, decide_eq_true_eq] at hc
    refine ⟨fun h => by simp [Expr.level] at h, fun h => by simp [Expr.level] at h, ?_⟩
    exact expressionRuns_sub A l r (ihl hc.1.1).2.2 ((ihr hc.1.2).2.1 hc.2)
  | mul l r ihl ihr =>
    intro hc
    simp only [Expr.conventional, Bool.and_eq_true, decide_eq_true_eq] at hc
    have ht := termRuns_mul A l r ((ihl hc.1.1.1).2.1 hc.1.2) ((ihr hc.1.1.2).1 hc.2)
    exact ⟨fun h => by simp [Expr.level] at h, fun _ => ht, expressionRuns_of_termRuns A _ ht⟩
  | div l r ihl ihr =>
    intro hc
    simp only [Expr.conventional, Bool.and_eq_true, decide_eq_true_eq] at hc
    have ht := termRuns_div A l r ((ihl hc.1.1.1).2.1 hc.1.2) ((ihr hc.1.1.2).1 hc.2)
    exact ⟨fun h => by simp [Expr.level] at h, fun _ => ht, expressionRuns_of_termRuns A _ ht⟩

/-! ## Calls and errors -/

@[simp]
theorem failure_eq_some {α : Type} (r : Except Err α) (e : Err) :
    failure r = some e ↔ r = .error e := by
  cases r <;> simp [failure]

/-- An error of a callee is the error of the caller: no function of the
evaluator catches. -/
theorem failure_of_invokes (A : DoubleOps D) {c c1 : Call D} (h : Invokes A c c1)
    (e : Err) (he : c1.failure A = some e) : c.failure A = some e := by
  cases h <;>
    simp_all [Call.failure, primary, term, termLoop, expression, expressionLoop,
      skipTerminators, calculate_expression, number]

theorem failure_of_reaches (A : DoubleOps D) {c c1 : Call D} (h : Reaches A c c1)
    (e : Err) (he : c1.failure A = some e) : c.failure A = some e := by
  induction h with
  | refl => exact he
  | tail _ h2 ih => exact ih (failure_of_invokes A h2 e he)

theorem ready_of_invokes (A : DoubleOps D) {c c1 : Call D} (h : Invokes A c c1)
    (hc : c.ready) : c1.ready := by
  cases h <;> simp_all [Call.ready] <;> exact get_ok_full A ‹_›

theorem ready_of_reaches (A : DoubleOps D) {c c1 : Call D} (h : Reaches A c c1)
    (hc : c.ready) : c1.ready := by
  induction h with
  | refl => exact hc
  | tail _ h2 ih => exact ready_of_invokes A h2 ih

theorem get_error (A : DoubleOps D) (s : State D) (e : Err)
    (h : Token_stream.get A s = .error e) : e = .noChar ∨ e = .badToken := by
  unfold Token_stream.get at h
  split at h
  · cases h
  · split at h
    · cases h; exact Or.inl rfl
    · split at h
      · cases h
      · split at h
        · cases h
        · cases h; exact Or.inr rfl

theorem get_ne_divideByZero (A : DoubleOps D) (s : State D) :
    Token_stream.get A s ≠ .error .divideByZero := by
  intro h
  rcases get_error A s _ h with h1 | h1 <;> cases h1

theorem putback_ne_divideByZero (t : Token D) (s : State D) :
    Token_stream.putback t s ≠ .error .divideByZero := by
  unfold Token_stream.putback
  split <;> simp

theorem zeroDivisorIn_of_invokes (A : DoubleOps D) {c c1 : Call D} (h : Invokes A c c1)
    (h1 : ZeroDivisorIn A c1) : ZeroDivisorIn A c := by
  obtain ⟨n, left, t, s, d, s1, hr, hk, hp, hz⟩ := h1
  exact ⟨n, left, t, s, d, s1, Relation.ReflTransGen.head h hr, hk, hp, hz⟩

theorem zeroDivisorIn_all (A : DoubleOps D) (n : Nat) :
    (∀ s : State D, primary A n s = .error .divideByZero → ZeroDivisorIn A (.primary n s)) ∧
    (∀ s : State D, term A n s = .error .divideByZero → ZeroDivisorIn A (.term n s)) ∧
    (∀ (left : D) (t : Token D) (s : State D),
      termLoop A n left t s = .error .divideByZero →
        ZeroDivisorIn A (.termLoop n left t s)) ∧
    (∀ s : State D, expression A n s = .error .divideByZero →
      ZeroDivisorIn A (.expression n s)) ∧
    (∀ (left : D) (t : Token D) (s : State D),
      expressionLoop A n left t s = .error .divideByZero →
        ZeroDivisorIn A (.expressionLoop n left t s)) := by
  induction n with
  | zero => simp [primary, term, termLoop, expression, expressionLoop]
  | succ n ih =>
    obtain ⟨ihP, ihT, ihTL, ihE, ihEL⟩ := ih
    refine ⟨?_, ?_, ?_, ?_, ?_⟩
    · intro s h
      unfold primary at h
      cases hg : Token_stream.get A s with
      | error e =>
        rw [hg] at h
        simp only [Except.error.injEq] at h
        subst h
        exact absurd hg (get_ne_divideByZero A s)
      | ok p =>
        obtain ⟨t, s1⟩ := p
        rw [hg] at h
        simp only [] at h
        split at h
        · rename_i hk
          cases he : expression A n s1 with
          | error e =>
            rw [he] at h
            simp only [Except.error.injEq] at h
            subst h
            exact zeroDivisorIn_of_invokes A (.primary_expression n s s1 t hg hk) (ihE s1 he)
          | ok q =>
            obtain ⟨d, s2⟩ := q
            rw [he] at h
            simp only [] at h
            cases hg2 : Token_stream.get A s2 with
            | error e =>
              rw [hg2] at h
              simp only [Except.error.injEq] at h
              subst h
              exact absurd hg2 (get_ne_divideByZero A s2)
            | ok q2 =>
              obtain ⟨t1, s3⟩ := q2
              rw [hg2] at h
              simp only [] at h
              split at h <;> cases h
        · split at h
          · cases h
          · split at h
            · rename_i hk
              cases hp : primary A n s1 with
              | error e =>
                rw [hp] at h
                simp only [Except.error.injEq] at h
                subst h
                exact zeroDivisorIn_of_invokes A (.primary_minus n s s1 t hg hk) (ihP s1 hp)
              | ok q =>
                obtain ⟨x, s2⟩ := q
                rw [hp] at h
                cases h
            · split at h
              · rename_i hk
                exact zeroDivisorIn_of_invokes A (.primary_plus n s s1 t hg hk) (ihP s1 h)
              · cases h
    · intro s h
      unfold term at h
      cases hp : primary A n s with
      | error e =>
        rw [hp] at h
        simp only [Except.error.injEq] at h
        subst h
        exact zeroDivisorIn_of_invokes A (.term_primary n s) (ihP s hp)
      | ok q =>
        obtain ⟨left, s1⟩ := q
        rw [hp] at h
        simp only [] at h
        cases hg : Token_stream.get A s1 with
        | error e =>
          rw [hg] at h
          simp only [Except.error.injEq] at h
          subst h
          exact absurd hg (get_ne_divideByZero A s1)
        | ok q2 =>
          obtain ⟨t, s2⟩ := q2
          rw [hg] at h
          exact zeroDivisorIn_of_invokes A (.term_loop n s s1 s2 left t hp hg)
            (ihTL left t s2 h)
    · intro left t s h
      unfold termLoop at h
      split at h
      · rename_i hk
        cases hp : primary A n s with
        | error e =>
          rw [hp] at h
          simp only [Except.error.injEq] at h
          subst h
          exact zeroDivisorIn_of_invokes A (.termLoop_mul_primary n left t s hk) (ihP s hp)
        | ok q =>
          obtain ⟨x, s1⟩ := q
          rw [hp] at h
          simp only [] at h
          cases hg : Token_stream.get A s1 with
          | error e =>
            rw [hg] at h
            simp only [Except.error.injEq] at h
            subst h
            exact absurd hg (get_ne_divideByZero A s1)
          | ok q2 =>
            obtain ⟨t1, s2⟩ := q2
            rw [hg] at h
            exact zeroDivisorIn_of_invokes A (.termLoop_mul_loop n left x t t1 s s1 s2 hk hp hg)
              (ihTL _ t1 s2 h)
      · split at h
        · rename_i hk
          cases hp : primary A n s with
          | error e =>
            rw [hp] at h
            simp only [Except.error.injEq] at h
            subst h
            exact zeroDivisorIn_of_invokes A (.termLoop_div_primary n left t s hk) (ihP s hp)
          | ok q =>
            obtain ⟨d, s1⟩ := q
            rw [hp] at h
            simp only [] at h
            by_cases hz : A.isZero d = true
            · exact ⟨n, left, t, s, d, s1, Relation.ReflTransGen.refl, hk, hp, hz⟩
            · have hz1 : A.isZero d = false := by simpa using hz
              rw [if_neg hz] at h
              cases hg : Token_stream.get A s1 with
              | error e =>
                rw [hg] at h
                simp only [Except.error.injEq] at h
                subst h
                exact absurd hg (get_ne_divideByZero A s1)
              | ok q2 =>
                obtain ⟨t1, s2⟩ := q2
                rw [hg] at h
                exact zeroDivisorIn_of_invokes A
                  (.termLoop_div_loop n left d t t1 s s1 s2 hk hp hz1 hg) (ihTL _ t1 s2 h)
        · split at h
          · rename_i hk
            simp only [] at h
            split at h
            · cases h
            · rename_i h1n
              have h1r : InIntRange (A.toInt left) := not_not.mp h1n
              cases hp : term A n s with
              | error e =>
                rw [hp] at h
                simp only [Except.error.injEq] at h
                subst h
                exact zeroDivisorIn_of_invokes A (.termLoop_mod_term n left t s hk h1r)
                  (ihT s hp)
              | ok q =>
                obtain ⟨x, s1⟩ := q
                rw [hp] at h
                simp only [] at h
                split at h
                · cases h
                · rename_i h2n
                  have h2r : InIntRange (A.toInt x) := not_not.mp h2n
                  split at h
                  · cases h
                  · rename_i hx
                    split at h
                    · cases h
                    · rename_i hqn
                      have hq : InIntRange (Int.tdiv (A.toInt left) (A.toInt x)) :=
                        not_not.mp hqn
                      cases hg : Token_stream.get A s1 with
                      | error e =>
                        rw [hg] at h
                        simp only [Except.error.injEq] at h
                        subst h
                        exact absurd hg (get_ne_divideByZero A s1)
                      | ok q2 =>
                        obtain ⟨t1, s2⟩ := q2
                        rw [hg] at h
                        exact zeroDivisorIn_of_invokes A
                          (.termLoop_mod_loop n left x t t1 s s1 s2 hk h1r hp h2r hx hq hg)
                          (ihTL _ t1 s2 h)
          · cases hpb : Token_stream.putback t s with
            | error e =>
              rw [hpb] at h
              simp only [Except.error.injEq] at h
              subst h
              exact absurd hpb (putback_ne_divideByZero t s)
            | ok s1 =>
              rw [hpb] at h
              cases h
    · intro s h
      unfold expression at h
      cases hp : term A n s with
      | error e =>
        rw [hp] at h
        simp only [Except.error.injEq] at h
        subst h
        exact zeroDivisorIn_of_invokes A (.expression_term n s) (ihT s hp)
      | ok q =>
        obtain ⟨left, s1⟩ := q
        rw [hp] at h
        simp only [] at h
        cases hg : Token_stream.get A s1 with
        | error e =>
          rw [hg] at h
          simp only [Except.error.injEq] at h
          subst h
          exact absurd hg (get_ne_divideByZero A s1)
        | ok q2 =>
          obtain ⟨t, s2⟩ := q2
          rw [hg] at h
          exact zeroDivisorIn_of_invokes A (.expression_loop n s s1 s2 left t hp hg)
            (ihEL left t s2 h)
    · intro left t s h
      unfold expressionLoop at h
      split at h
      · rename_i hk
        cases hp : term A n s with
        | error e =>
          rw [hp] at h
          simp only [Except.error.injEq] at h
          subst h
          exact zeroDivisorIn_of_invokes A (.expressionLoop_plus_term n left t s hk) (ihT s hp)
        | ok q =>
          obtain ⟨x, s1⟩ := q
          rw [hp] at h
          simp only [] at h
          cases hg : Token_stream.get A s1 with
          | error e =>
            rw [hg] at h
            simp only [Except.error.injEq] at h
            subst h
            exact absurd hg (get_ne_divideByZero A s1)
          | ok q2 =>
            obtain ⟨t1, s2⟩ := q2
            rw [hg] at h
            exact zeroDivisorIn_of_invokes A
              (.expressionLoop_plus_loop n left x t t1 s s1 s2 hk hp hg) (ihEL _ t1 s2 h)
      · split at h
        · rename_i hk
          cases hp : term A n s with
          | error e =>
            rw [hp] at h
            simp only [Except.error.injEq] at h
            subst h
            exact zeroDivisorIn_of_invokes A (.expressionLoop_minus_term n left t s hk)
              (ihT s hp)
          | ok q =>
            obtain ⟨x, s1⟩ := q
            rw [hp] at h
            simp only [] at h
            cases hg : Token_stream.get A s1 with
            | error e =>
              rw [hg] at h
              simp only [Except.error.injEq] at h
              subst h
              exact absurd hg (get_ne_divideByZero A s1)
            | ok q2 =>
              obtain ⟨t1, s2⟩ := q2
              rw [hg] at h
              exact zeroDivisorIn_of_invokes A
                (.expressionLoop_minus_loop n left x t t1 s s1 s2 hk hp hg) (ihEL _ t1 s2 h)
        · cases hpb : Token_stream.putback t s with
          | error e =>
            rw [hpb] at h
            simp only [Except.error.injEq] at h
            subst h
            exact absurd hpb (putback_ne_divideByZero t s)
          | ok s1 =>
            rw [hpb] at h
            cases h

/-! ## The entry point -/

theorem zeroDivisorIn_skipTerminators (A : DoubleOps D) (n : Nat) :
    ∀ (t : Token D) (s : State D), skipTerminators A n t s = .error .divideByZero →
      ZeroDivisorIn A (.skipTerminators n t s) := by
  induction n with
  | zero => intro t s h; simp [skipTerminators] at h
  | succ n ih =>
    intro t s h
    unfold skipTerminators at h
    split at h
    · rename_i hk
      cases hg : Token_stream.get A s with
      | error e =>
        rw [hg] at h
        simp only [Except.error.injEq] at h
        subst h
        exact absurd hg (get_ne_divideByZero A s)
      | ok q =>
        obtain ⟨t1, s1⟩ := q
        rw [hg] at h
        exact zeroDivisorIn_of_invokes A (.skip_loop n t t1 s s1 hk hg) (ih t1 s1 h)
    · rename_i hk
      cases hpb : Token_stream.putback t s with
      | error e =>
        rw [hpb] at h
        simp only [Except.error.injEq] at h
        subst h
        exact absurd hpb (putback_ne_divideByZero t s)
      | ok s1 =>
        rw [hpb] at h
        exact zeroDivisorIn_of_invokes A (.skip_expression n t s s1 hk hpb)
          ((zeroDivisorIn_all A n).2.2.2.1 s1 h)

theorem zeroDivisorIn_calculate_expression (A : DoubleOps D) (fuel : Nat) (str : List Char)
    (s : State D) (h : calculate_expression A fuel str s = .error .divideByZero) :
    ZeroDivisorIn A (.calculate_expression fuel str s) := by
  unfold calculate_expression at h
  cases hg : Token_stream.get A { s with is := ⟨str, false⟩ } with
  | error e =>
    rw [hg] at h
    simp only [Except.error.injEq] at h
    subst h
    exact absurd hg (get_ne_divideByZero A _)
  | ok q =>
    obtain ⟨t, s1⟩ := q
    rw [hg] at h
    exact zeroDivisorIn_of_invokes A (.calculate_skip fuel str s s1 t hg)
      (zeroDivisorIn_skipTerminators A fuel t s1 h)

/-- The loop over leading terminators does not read the stale content of an
empty buffer. -/
theorem skipTerminators_stale (A : DoubleOps D) (n : Nat) :
    ∀ (t b b1 : Token D) (σ : IStream),
      skipTerminators A n t ⟨⟨false, b⟩, σ⟩ = skipTerminators A n t ⟨⟨false, b1⟩, σ⟩ := by
  induction n with
  | zero => intro t b b1 σ; simp [skipTerminators]
  | succ n ih =>
    intro t b b1 σ
    unfold skipTerminators
    split
    · rw [get_of_empty A b σ, get_of_empty A b1 σ]
      cases hl : lexToken A σ with
      | error e => rfl
      | ok q =>
        obtain ⟨t1, σ1⟩ := q
        exact ih t1 b b1 σ1
    · simp [Token_stream.putback]

theorem calculate_expression_empty (A : DoubleOps D) (fuel : Nat) (str : List Char)
    (s : State D) (h : s.ts.full = false) :
    calculate_expression A fuel str s = calculate_expression A fuel str (State.init A) := by
  obtain ⟨⟨full, b⟩, σ⟩ := s
  cases h
  unfold calculate_expression
  simp only [State.init, Token_stream.init]
  rw [get_of_empty A b, get_of_empty A (Token.default A)]
  cases hl : lexToken A ⟨str, false⟩ with
  | error e => rfl
  | ok q =>
    obtain ⟨t1, σ1⟩ := q
    exact skipTerminators_stale A fuel t1 _ _ σ1

theorem calculate_expression_terminator (A : DoubleOps D) (fuel : Nat) (str : List Char)
    (s : State D) (h : s.ts.full = true) (hk : s.ts.buffer.kind = ';') :
    calculate_expression A (fuel + 1) str s =
      calculate_expression A fuel str (State.init A) := by
  obtain ⟨⟨full, b⟩, σ⟩ := s
  cases h
  simp only at hk
  unfold calculate_expression
  simp only [State.init, Token_stream.init]
  rw [get_of_full A _ rfl]
  simp only []
  rw [skipTerminators, if_pos hk, get_of_empty A b, get_of_empty A (Token.default A)]
  cases hl : lexToken A ⟨str, false⟩ with
  | error e => rfl
  | ok q =>
    obtain ⟨t1, σ1⟩ := q
    exact skipTerminators_stale A fuel t1 _ _ σ1

theorem lexToken_terminator (A : DoubleOps D) (cs : List Char) :
    lexToken A ⟨';' :: cs, false⟩ = .ok (Token.ofChar A ';', ⟨cs, false⟩) := by
  simp [lexToken, Token_stream.get, IStream.getChar, skipws, isSpace, isPunct, print,
    Token_stream.init]

theorem calculate_expression_skip (A : DoubleOps D) (fuel : Nat) (str : List Char)
    (s : State D) (h : s.ts.full = false) :
    calculate_expression A (fuel + 1) (';' :: str) s = calculate_expression A fuel str s := by
  obtain ⟨⟨full, b⟩, σ⟩ := s
  cases h
  unfold calculate_expression
  rw [get_of_empty A b, lexToken_terminator]
  simp only []
  rw [skipTerminators, if_pos (by simp [Token.ofChar])]

theorem calculate_expression_skip_many (A : DoubleOps D) (fuel : Nat) (str : List Char)
    (s : State D) (h : s.ts.full = false) (k : Nat) :
    calculate_expression A (fuel + k) (List.replicate k ';' ++ str) s =
      calculate_expression A fuel str s := by
  induction k with
  | zero => rfl
  | succ k ih =>
    have e1 : fuel + (k + 1) = (fuel + k) + 1 := by omega
    rw [e1, List.replicate_succ, List.cons_append, calculate_expression_skip A _ _ s h, ih]

theorem lexes_of_tokenize (A : DoubleOps D) (k : Nat) :
    ∀ (σ σ1 : IStream) (l : List (Token D)), tokenize A k σ = .ok (l, σ1) → Lexes A σ l σ1 := by
  induction k with
  | zero =>
    intro σ σ1 l h
    simp only [tokenize, Except.ok.injEq, Prod.mk.injEq] at h
    obtain ⟨rfl, rfl⟩ := h
    rfl
  | succ k ih =>
    intro σ σ1 l h
    unfold tokenize at h
    cases hl : lexToken A σ with
    | error e => rw [hl] at h; cases h
    | ok q =>
      obtain ⟨t, σ2⟩ := q
      rw [hl] at h
      simp only [] at h
      cases ht : tokenize A k σ2 with
      | error e => rw [ht] at h; cases h
      | ok q2 =>
        obtain ⟨l2, σ3⟩ := q2
        rw [ht] at h
        simp only [Except.ok.injEq, Prod.mk.injEq] at h
        obtain ⟨rfl, rfl⟩ := h
        exact ⟨σ2, hl, ih σ2 σ3 l2 ht⟩

/-- The first Token of a tree is not the terminator. -/
theorem toks_head (A : DoubleOps D) (e : Expr D) :
    ∃ t l, e.toks A = t :: l ∧ t.kind ≠ ';' := by
  induction e with
  | num v => exact ⟨_, _, rfl, by simp [number]⟩
  | paren e _ => exact ⟨_, _, rfl, by simp [Token.ofChar]⟩
  | neg e _ => exact ⟨_, _, rfl, by simp [Token.ofChar]⟩
  | pos e _ => exact ⟨_, _, rfl, by simp [Token.ofChar]⟩
  | add l r ihl _ =>
    obtain ⟨t, l1, h1, h2⟩ := ihl
    exact ⟨t, l1 ++ Token.ofChar A '+' :: r.toks A, by simp [Expr.toks, h1], h2⟩
  | sub l r ihl _ =>
    obtain ⟨t, l1, h1, h2⟩ := ihl
    exact ⟨t, l1 ++ Token.ofChar A '-' :: r.toks A, by simp [Expr.toks, h1], h2⟩
  | mul l r ihl _ =>
    obtain ⟨t, l1, h1, h2⟩ := ihl
    exact ⟨t, l1 ++ Token.ofChar A '*' :: r.toks A, by simp [Expr.toks, h1], h2⟩
  | div l r ihl _ =>
    obtain ⟨t, l1, h1, h2⟩ := ihl
    exact ⟨t, l1 ++ Token.ofChar A '/' :: r.toks A, by simp [Expr.toks, h1], h2⟩

/-- On input that lexes as the Tokens of a conventional parse tree followed
by the terminator, `calculate_expression` returns the value of the tree, or
fails with "divide by zero" when a divisor in the tree is zero. -/
theorem calculate_expression_tree (A : DoubleOps D) (e : Expr D)
    (hc : e.conventional = true) :
    ∃ N, ∀ (str : List Char) (s : State D) (σ1 : IStream), s.ts.full = false →
      Lexes A ⟨str, false⟩ (e.toks A ++ [Token.ofChar A print]) σ1 →
      ∀ fuel, N ≤ fuel →
        calculate_expression A fuel str s =
          treeResult A e (fun v => .ok (v, ⟨⟨true, Token.ofChar A print⟩, σ1⟩)) := by
  obtain ⟨N, hN⟩ := expression_result A e (runs_of_conventional A e hc).2.2
  refine ⟨N + 1, fun str s σ1 hs hl fuel hfuel => ?_⟩
  obtain ⟨n, rfl⟩ : ∃ n, fuel = n + 1 := ⟨fuel - 1, by omega⟩
  obtain ⟨⟨full, b⟩, σ⟩ := s
  cases hs
  obtain ⟨t, l, h1, h2⟩ := toks_head A e
  rw [h1] at hl
  obtain ⟨σ2, h3, h4⟩ := hl
  unfold calculate_expression
  rw [get_of_lexToken A b h3]
  simp only []
  rw [skipTerminators, if_neg h2]
  simp only [Token_stream.putback]
  have hf : Feeds A ⟨⟨true, t⟩, σ2⟩ (e.toks A ++ [Token.ofChar A print]) σ1 := by
    rw [h1]
    exact (feeds_of_full A t σ2 σ1 _).2 h4
  have := hN ⟨⟨true, t⟩, σ2⟩ (Token.ofChar A print) σ1
    (by simp [Token.ofChar, print]) (by simp [Token.ofChar, print])
    (by simp [Token.ofChar, print]) (by simp [Token.ofChar, print])
    (by simp [Token.ofChar, print]) hf n (by omega)
  simpa using this

/-! ## The rational instance -/

theorem int_tdiv_eq_zero_iff (a : Int) (b : Nat) (hb : 0 < b) :
    Int.tdiv a b = 0 ↔ -(b : Int) < a ∧ a < b := by
  rw [← Int.natAbs_eq_zero, Int.natAbs_tdiv, Int.natAbs_ofNat]
  show a.natAbs / b = 0 ↔ _
  rw [Nat.div_eq_zero_iff hb]
  omega

theorem ratOps_toInt_eq_zero (q : ℚ) : ratOps.toInt q = 0 ↔ -1 < q ∧ q < 1 := by
  show Int.tdiv q.num q.den = 0 ↔ _
  rw [int_tdiv_eq_zero_iff q.num q.den q.den_pos]
  have hd : (0 : ℚ) < (q.den : ℚ) := by exact_mod_cast q.den_pos
  have hq : (q.num : ℚ) / (q.den : ℚ) = q := Rat.num_div_den q
  have h1 : -1 < q ↔ -(q.den : Int) < q.num := by
    conv_lhs => rw [← hq]
    rw [lt_div_iff₀ hd, neg_one_mul]
    constructor
    · intro h; exact_mod_cast h
    · intro h; exact_mod_cast h
  have h2 : q < 1 ↔ q.num < (q.den : Int) := by
    conv_lhs => rw [← hq]
    rw [div_lt_one hd]
    constructor
    · intro h; exact_mod_cast h
    · intro h; exact_mod_cast h
  rw [h1, h2]

theorem ratOps_add (a b : ℚ) : ratOps.add a b = a + b := by
  show mkRat (a.num * b.den + b.num * a.den) (a.den * b.den) = a + b
  rw [Rat.mkRat_eq_div]
  have ha : (a.den : ℚ) ≠ 0 := by exact_mod_cast a.den_nz
  have hb : (b.den : ℚ) ≠ 0 := by exact_mod_cast b.den_nz
  conv_rhs => rw [← Rat.num_div_den a, ← Rat.num_div_den b]
  push_cast
  field_simp

theorem ratOps_sub (a b : ℚ) : ratOps.sub a b = a - b := by
  show mkRat (a.num * b.den - b.num * a.den) (a.den * b.den) = a - b
  rw [Rat.mkRat_eq_div]
  have ha : (a.den : ℚ) ≠ 0 := by exact_mod_cast a.den_nz
  have hb : (b.den : ℚ) ≠ 0 := by exact_mod_cast b.den_nz
  conv_rhs => rw [← Rat.num_div_den a, ← Rat.num_div_den b]
  push_cast
  field_simp
  ring

theorem ratOps_mul (a b : ℚ) : ratOps.mul a b = a * b := by
  show mkRat (a.num * b.num) (a.den * b.den) = a * b
  rw [Rat.mkRat_eq_div]
  have ha : (a.den : ℚ) ≠ 0 := by exact_mod_cast a.den_nz
  have hb : (b.den : ℚ) ≠ 0 := by exact_mod_cast b.den_nz
  conv_rhs => rw [← Rat.num_div_den a, ← Rat.num_div_den b]
  push_cast
  field_simp

theorem ratOps_div (a b : ℚ) : ratOps.div a b = a / b := by
  show Rat.divInt (a.num * b.den) (a.den * b.num) = a / b
  rw [Rat.divInt_eq_div]
  have ha : (a.den : ℚ) ≠ 0 := by exact_mod_cast a.den_nz
  have hb : (b.den : ℚ) ≠ 0 := by exact_mod_cast b.den_nz
  conv_rhs => rw [← Rat.num_div_den a, ← Rat.num_div_den b]
  push_cast
  by_cases hn : (b.num : ℚ) = 0
  · simp [hn]
  · field_simp

theorem ratOps_isZero (a : ℚ) : ratOps.isZero a = true ↔ a = 0 := by
  show decide (a.num = 0) = true ↔ a = 0
  simp

theorem ratOps_ofInt (i : Int) : ratOps.ofInt i = (i : ℚ) := by
  show mkRat i 1 = (i : ℚ)
  rw [Rat.mkRat_eq_div]
  simp

/-! ## Shared consequences -/

theorem evaluates_tree (A : DoubleOps D) (e : Expr D) (str : List Char) (s : State D)
    (σ1 : IStream) (k : Nat) (hc : e.conventional = true) (hs : s.ts.full = false)
    (hlex : tokenize A k ⟨str, false⟩ = .ok (e.toks A ++ [Token.ofChar A print], σ1)) :
    Evaluates A str s
      (if e.noZeroDivisor A then .ok (e.value A) else .error .divideByZero) := by
  obtain ⟨N, hN⟩ := calculate_expression_tree A e hc
  refine ⟨N, fun fuel hfuel => ?_⟩
  rw [hN str s σ1 hs (lexes_of_tokenize A k _ _ _ hlex) fuel hfuel]
  unfold treeResult
  by_cases hz : e.noZeroDivisor A = true
  · simp [hz, outcome]
  · simp [hz, outcome]

theorem calculate_expression_of_reaches (A : DoubleOps D) {fuel : Nat} {str : List Char}
    {s0 : State D} {c : Call D} (h : Reaches A (.calculate_expression fuel str s0) c)
    (e : Err) (he : c.failure A = some e) :
    calculate_expression A fuel str s0 = .error e := by
  have := failure_of_reaches A h e he
  simpa [Call.failure] using this

/-! ## The claims -/

/-- C1.  Let the input lex as the Tokens of a conventional parse tree `e`
over `+ - * /`, unary signs and parentheses (`*` and `/` bind tighter than
`+` and `-`, the binary operators associate to the left, signs bind
tightest), followed by the terminator `;`, and let no divisor in `e` compare
equal to zero.  Then `calculate_expression`, started with an empty buffer,
returns the value of `e` in the arithmetic of the evaluator, for every
sufficient amount of fuel. -/
theorem calculate_expression_conventional (A : DoubleOps D) (e : Expr D) (str : List Char)
    (s : State D) (σ1 : IStream) (k : Nat)
    (hc : e.conventional = true) (hz : e.noZeroDivisor A = true) (hs : s.ts.full = false)
    (hlex : tokenize A k ⟨str, false⟩ = .ok (e.toks A ++ [Token.ofChar A print], σ1)) :
    Evaluates A str s (.ok (e.value A)) := by
  have h := evaluates_tree A e str s σ1 k hc hs hlex
  rwa [if_pos hz] at h

/-- Witness of C1: `2+3*4;` gives 14, `10-4-3;` gives 3 and `8/4/2;` gives 1. -/
theorem calculate_expression_conventional_witness :
    Evaluates ratOps (chars "2+3*4;") (State.init ratOps) (.ok 14) ∧
    Evaluates ratOps (chars "10-4-3;") (State.init ratOps) (.ok 3) ∧
    Evaluates ratOps (chars "8/4/2;") (State.init ratOps) (.ok 1) :=
  ⟨calculate_expression_conventional ratOps (.add (.num 2) (.mul (.num 3) (.num 4)))
      (chars "2+3*4;") (State.init ratOps) ⟨[], false⟩ 6
      (by decide) (by decide) (by decide) (by decide),
    calculate_expression_conventional ratOps (.sub (.sub (.num 10) (.num 4)) (.num 3))
      (chars "10-4-3;") (State.init ratOps) ⟨[], false⟩ 6
      (by decide) (by decide) (by decide) (by decide),
    calculate_expression_conventional ratOps (.div (.div (.num 8) (.num 4)) (.num 2))
      (chars "8/4/2;") (State.init ratOps) ⟨[], false⟩ 6
      (by decide) (by decide) (by decide) (by decide)⟩

/-- C2.  On `7.5 % 2;` the evaluator returns 3, the quotient of 7 by 2, where
the remainder is 1: at `%` the loop of `term` stores `i1/i2`. -/
theorem percent_yields_quotient :
    outcome (calculate_expression ratOps 20 (chars "7.5 % 2;") (State.init ratOps)) = .ok 3 ∧
      Int.tdiv (ratOps.toInt (15 / 2)) (ratOps.toInt 2) = 3 ∧
      Int.tmod (ratOps.toInt (15 / 2)) (ratOps.toInt 2) = 1 := by
  refine ⟨by decide, ?_, ?_⟩
  · rw [show ((15 : ℚ) / 2) = mkRat 15 2 by norm_num [Rat.mkRat_eq_div]]; decide
  · rw [show ((15 : ℚ) / 2) = mkRat 15 2 by norm_num [Rat.mkRat_eq_div]]; decide

/-- Where "divide by zero" comes from: the exception reaches the `catch` of
`calculate_expression` exactly when, in the course of the evaluation, the
loop of `term` stands at a `/` and the `primary` that follows returns a
divisor `d` with `d==0`; the divisor may be a parenthesised expression, and
the comparison is the one of the arithmetic `A`. -/
theorem divide_by_zero_iff (A : DoubleOps D) (fuel : Nat) (str : List Char) (s0 : State D) :
    calculate_expression A fuel str s0 = .error .divideByZero ↔
      ∃ (n : Nat) (left : D) (t : Token D) (s : State D) (d : D) (s1 : State D),
        Reaches A (.calculate_expression fuel str s0) (.termLoop (n + 1) left t s) ∧
          t.kind = '/' ∧ primary A n s = .ok (d, s1) ∧ A.isZero d = true := by
  constructor
  · exact zeroDivisorIn_calculate_expression A fuel str s0
  · rintro ⟨n, left, t, s, d, s1, hr, hk, hp, hz⟩
    refine calculate_expression_of_reaches A hr _ ?_
    simp [Call.failure, termLoop, hk, hp, hz]

/-- Examples: `1/0;` and `1/(2-2);` throw "divide by zero", and the
exception of `1/0;` comes from a `/` followed by a zero divisor. -/
theorem divide_by_zero_iff_witness :
    calculate_expression ratOps 20 (chars "1/0;") (State.init ratOps) = .error .divideByZero ∧
    calculate_expression ratOps 20 (chars "1/(2-2);") (State.init ratOps) =
      .error .divideByZero ∧
    ∃ (n : Nat) (left : ℚ) (t : Token ℚ) (s : State ℚ) (d : ℚ) (s1 : State ℚ),
      Reaches ratOps (.calculate_expression 20 (chars "1/0;") (State.init ratOps))
          (.termLoop (n + 1) left t s) ∧
        t.kind = '/' ∧ primary ratOps n s = .ok (d, s1) ∧ ratOps.isZero d = true :=
  ⟨(divide_by_zero_iff ratOps 20 (chars "1/0;") (State.init ratOps)).2
      ⟨16, 1, ⟨'/', 0⟩, ⟨⟨false, ⟨'8', 1⟩⟩, ⟨chars "0;", false⟩⟩, 0, _,
        Relation.ReflTransGen.head (Invokes.calculate_skip 20 _ _ _ _ rfl)
          (Relation.ReflTransGen.head (Invokes.skip_expression 19 _ _ _ (by decide) rfl)
            (Relation.ReflTransGen.head (Invokes.expression_term 18 _)
              (Relation.ReflTransGen.head (Invokes.term_loop 17 _ _ _ _ _ rfl rfl)
                Relation.ReflTransGen.refl))),
        rfl, rfl, rfl⟩,
    (divide_by_zero_iff ratOps 20 (chars "1/(2-2);") (State.init ratOps)).2
      ⟨16, 1, ⟨'/', 0⟩, ⟨⟨false, ⟨'8', 1⟩⟩, ⟨chars "(2-2);", false⟩⟩, 0, _,
        Relation.ReflTransGen.head (Invokes.calculate_skip 20 _ _ _ _ rfl)
          (Relation.ReflTransGen.head (Invokes.skip_expression 19 _ _ _ (by decide) rfl)
            (Relation.ReflTransGen.head (Invokes.expression_term 18 _)
              (Relation.ReflTransGen.head (Invokes.term_loop 17 _ _ _ _ _ rfl rfl)
                Relation.ReflTransGen.refl))),
        rfl, rfl, rfl⟩,
    (divide_by_zero_iff ratOps 20 (chars "1/0;") (State.init ratOps)).1 (by decide)⟩

/-- C3.  On `1/0;` (and on `1/(2-2);`) the loop of `term` throws "divide by
zero" and nothing is divided; the exception reaches the `catch` of
`calculate_expression`, which prints it.  The function then flows off its
end without a `return`, so its caller is handed a `double` of indeterminate
value and displays it: the failed evaluation does yield a number. -/
theorem divide_by_zero_hands_back_a_double :
    calculate_expression ratOps 20 (chars "1/0;") (State.init ratOps) = .error .divideByZero ∧
      Err.what .divideByZero = some "divide by zero" ∧
      received (calculate_expression ratOps 20 (chars "1/0;") (State.init ratOps)) =
        some .indeterminate ∧
      received (calculate_expression ratOps 20 (chars "1/(2-2);") (State.init ratOps)) =
        some .indeterminate := by
  decide

/-- Where "%: divide by zero" comes from: whenever, in the course of an
evaluation, the loop of `term` stands at a `%` with a left operand whose
conversion is a value of `int`, and the `term` that follows returns a value
whose conversion to `int` is 0, the exception "%: divide by zero" is thrown
and reaches the `catch` of `calculate_expression`.  For exact rationals the
conversion is 0 exactly for the values strictly between -1 and 1. -/
theorem modulo_by_zero (A : DoubleOps D) :
    (∀ (fuel : Nat) (str : List Char) (s0 : State D) (n : Nat) (left : D) (t : Token D)
        (s : State D) (x : D) (s1 : State D),
        Reaches A (.calculate_expression fuel str s0) (.termLoop (n + 1) left t s) →
        t.kind = '%' → InIntRange (A.toInt left) → term A n s = .ok (x, s1) →
        A.toInt x = 0 →
        calculate_expression A fuel str s0 = .error .modDivideByZero) ∧
      (∀ q : ℚ, ratOps.toInt q = 0 ↔ -1 < q ∧ q < 1) := by
  refine ⟨?_, ratOps_toInt_eq_zero⟩
  intro fuel str s0 n left t s x s1 hr hk hl ht hx
  refine calculate_expression_of_reaches A hr _ ?_
  simp [Call.failure, termLoop, hk, hl, ht, hx, inIntRange_zero]

/-- Example: `5 % 0.5;` throws "%: divide by zero". -/
theorem modulo_by_zero_witness :
    calculate_expression ratOps 20 (chars "5 % 0.5;") (State.init ratOps) =
      .error .modDivideByZero :=
  (modulo_by_zero ratOps).1 20 (chars "5 % 0.5;") (State.init ratOps) 16 5 ⟨'%', 0⟩
    ⟨⟨false, ⟨'8', 5⟩⟩, ⟨chars " 0.5;", false⟩⟩ (mkRat 1 2) _
    (Relation.ReflTransGen.head (Invokes.calculate_skip 20 _ _ _ _ rfl)
      (Relation.ReflTransGen.head (Invokes.skip_expression 19 _ _ _ (by decide) rfl)
        (Relation.ReflTransGen.head (Invokes.expression_term 18 _)
          (Relation.ReflTransGen.head (Invokes.term_loop 17 _ _ _ _ _ rfl rfl)
            Relation.ReflTransGen.refl))))
    rfl (by decide) rfl rfl

/-- C4.  On `5 % 0.5;` the right operand of `%` has the truncation 0: the
loop of `term` throws "%: divide by zero", and the exception reaches the
`catch` of `calculate_expression`, which prints it.  The function then flows
off its end without a `return`, so its caller is handed a `double` of
indeterminate value and displays it: the failed evaluation does yield a
number. -/
theorem modulo_by_zero_hands_back_a_double :
    ratOps.toInt (mkRat 1 2) = 0 ∧
      calculate_expression ratOps 20 (chars "5 % 0.5;") (State.init ratOps) =
        .error .modDivideByZero ∧
      Err.what .modDivideByZero = some "%: divide by zero" ∧
      received (calculate_expression ratOps 20 (chars "5 % 0.5;") (State.init ratOps)) =
        some .indeterminate := by
  decide

/-- C5.  The buffer of a `Token_stream` is one slot (`full`, `buffer`), so it
never holds more than one Token.  In the course of any evaluation, whatever
the input and the fuel, every call of `Token_stream::putback` finds the
buffer empty and stores its Token; hence no evaluation ends in the error
"putback() into a full buffer". -/
theorem putback_only_into_empty_buffer (A : DoubleOps D) (fuel : Nat) (str : List Char)
    (s0 : State D) :
    (∀ (t : Token D) (s : State D),
        Reaches A (.calculate_expression fuel str s0) (.putback t s) →
        s.ts.full = false ∧ Token_stream.putback t s = .ok ⟨⟨true, t⟩, s.is⟩) ∧
      calculate_expression A fuel str s0 ≠ .error .putbackFull := by
  refine ⟨fun t s hr => ?_, ?_⟩
  · have h : s.ts.full = false := ready_of_reaches A hr trivial
    exact ⟨h, putback_of_empty t s h⟩
  · intro h
    have := bufferOk_calculate_expression A fuel str s0
    rw [h] at this
    exact this rfl

/-- Witness of C5: the `putback` that `calculate_expression` makes on `2;`. -/
theorem putback_only_into_empty_buffer_witness :
    Token_stream.putback ⟨'8', (2 : ℚ)⟩ ⟨⟨false, Token.default ratOps⟩, ⟨chars ";", false⟩⟩ =
      .ok ⟨⟨true, ⟨'8', 2⟩⟩, ⟨chars ";", false⟩⟩ :=
  ((putback_only_into_empty_buffer ratOps 20 (chars "2;") (State.init ratOps)).1
    ⟨'8', 2⟩ ⟨⟨false, Token.default ratOps⟩, ⟨chars ";", false⟩⟩
    (Relation.ReflTransGen.head (Invokes.calculate_skip 20 _ _ _ _ rfl)
      (Relation.ReflTransGen.head (Invokes.skip_putback 19 _ _ (by decide))
        Relation.ReflTransGen.refl))).2

/-- C6, as stated, fails: `calculate_expression` does not clear the buffer.
The evaluation of `2+2);` returns 4 and leaves `)` in the buffer; on the same
`Calculator`, `1;` then fails with "primary expected", whereas from an empty
buffer it gives 1. -/
theorem buffer_not_cleared :
    calculate_expression ratOps 20 (chars "2+2);") (State.init ratOps) =
        .ok (4, ⟨⟨true, ⟨')', 0⟩⟩, ⟨chars ";", false⟩⟩) ∧
      outcome (calculate_expression ratOps 20 (chars "1;")
        ⟨⟨true, ⟨')', 0⟩⟩, ⟨chars ";", false⟩⟩) = .error .primaryExpected ∧
      outcome (calculate_expression ratOps 20 (chars "1;") (State.init ratOps)) = .ok 1 := by
  decide

theorem evaluates_shift (A : DoubleOps D) (str str1 : List Char) (s s1 : State D) (k : Nat)
    (h : ∀ fuel, calculate_expression A (fuel + k) str s = calculate_expression A fuel str1 s1)
    (r : Except Err D) : Evaluates A str s r ↔ Evaluates A str1 s1 r := by
  constructor
  · rintro ⟨N, hN⟩
    refine ⟨N, fun fuel hf => ?_⟩
    rw [← h fuel]
    exact hN (fuel + k) (by omega)
  · rintro ⟨N, hN⟩
    refine ⟨N + k, fun fuel hf => ?_⟩
    obtain ⟨m, rfl⟩ : ∃ m, fuel = m + k := ⟨fuel - k, by omega⟩
    rw [h m]
    exact hN m (by omega)

/-- C6, amended.  For every input and every prior state whose buffer is empty,
or full with a statement-terminator Token, the outcome of
`calculate_expression` is the same as when it is started on a fresh
`Calculator`. -/
theorem outcome_of_prior_state (A : DoubleOps D) (str : List Char) (s : State D)
    (h : s.ts.full = false ∨ s.ts.buffer.kind = ';') (r : Except Err D) :
    Evaluates A str s r ↔ Evaluates A str (State.init A) r := by
  by_cases hf : s.ts.full = true
  · rcases h with h | h
    · rw [hf] at h; cases h
    · exact evaluates_shift A str str s (State.init A) 1
        (fun fuel => calculate_expression_terminator A fuel str s hf h) r
  · have hf1 : s.ts.full = false := by simpa using hf
    exact evaluates_shift A str str s (State.init A) 0
      (fun fuel => calculate_expression_empty A fuel str s hf1) r

/-- Witness of C6, amended: after `2;` the buffer holds `;`, and `3+4;` then
gives 7 as on a fresh `Calculator`. -/
theorem outcome_of_prior_state_witness :
    calculate_expression ratOps 20 (chars "2;") (State.init ratOps) =
        .ok (2, ⟨⟨true, ⟨';', 0⟩⟩, ⟨[], false⟩⟩) ∧
      Evaluates ratOps (chars "3+4;") ⟨⟨true, ⟨';', 0⟩⟩, ⟨[], false⟩⟩ (.ok 7) :=
  ⟨by decide,
    (outcome_of_prior_state ratOps (chars "3+4;") ⟨⟨true, ⟨';', 0⟩⟩, ⟨[], false⟩⟩
      (Or.inr rfl) (.ok 7)).2
      (evaluates_tree ratOps (.add (.num 3) (.num 4)) (chars "3+4;") (State.init ratOps)
        ⟨[], false⟩ 4 (by decide) (by decide) (by decide))⟩

/-- C7.  Leading statement terminators are skipped: started with an empty
buffer, `calculate_expression` on `k` copies of `;` followed by `str` does
what it does on `str`, the `k` extra turns of its loop apart; so both have
the same outcome. -/
theorem leading_terminators_skipped (A : DoubleOps D) (str : List Char) (s : State D)
    (hs : s.ts.full = false) (k : Nat) :
    (∀ fuel, calculate_expression A (fuel + k) (List.replicate k ';' ++ str) s =
        calculate_expression A fuel str s) ∧
      ∀ r, Evaluates A (List.replicate k ';' ++ str) s r ↔ Evaluates A str s r :=
  ⟨fun fuel => calculate_expression_skip_many A fuel str s hs k,
    evaluates_shift A _ str s s k
      (fun fuel => calculate_expression_skip_many A fuel str s hs k)⟩

/-- Witness of C7: `;;3+4;` gives 7. -/
theorem leading_terminators_skipped_witness :
    Evaluates ratOps (chars ";;3+4;") (State.init ratOps) (.ok 7) :=
  ((leading_terminators_skipped ratOps (chars "3+4;") (State.init ratOps) rfl 2).2 (.ok 7)).2
    (evaluates_tree ratOps (.add (.num 3) (.num 4)) (chars "3+4;") (State.init ratOps)
      ⟨[], false⟩ 4 (by decide) (by decide) (by decide))

theorem primary_paren (A : DoubleOps D) (n : Nat) (s s1 s2 s3 : State D) (t t1 : Token D)
    (v : D) (hg : Token_stream.get A s = .ok (t, s1)) (hk : t.kind = '(')
    (he : expression A n s1 = .ok (v, s2)) (hg1 : Token_stream.get A s2 = .ok (t1, s3))
    (hk1 : t1.kind = ')') : primary A (n + 1) s = .ok (v, s3) := by
  rw [primary, hg]
  simp [hk, he, hg1, hk1]

theorem primary_minus (A : DoubleOps D) (n : Nat) (s s1 s2 : State D) (t : Token D) (v : D)
    (hg : Token_stream.get A s = .ok (t, s1)) (hk : t.kind = '-')
    (hp : primary A n s1 = .ok (v, s2)) : primary A (n + 1) s = .ok (A.neg v, s2) := by
  rw [primary, hg]
  simp [hk, hp, number]

theorem primary_plus (A : DoubleOps D) (n : Nat) (s s1 s2 : State D) (t : Token D) (v : D)
    (hg : Token_stream.get A s = .ok (t, s1)) (hk : t.kind = '+')
    (hp : primary A n s1 = .ok (v, s2)) : primary A (n + 1) s = .ok (v, s2) := by
  rw [primary, hg]
  simp [hk, hp, number]

theorem primary_signs (A : DoubleOps D) (signs : List Char) :
    ∀ (s s1 s2 : State D) (n : Nat) (v : D), (∀ c ∈ signs, c = '+' ∨ c = '-') →
      Pulls A s signs s1 → primary A n s1 = .ok (v, s2) →
      primary A (n + signs.length) s = .ok (applySigns A signs v, s2) := by
  induction signs with
  | nil =>
    intro s s1 s2 n v _ hp h
    cases hp
    simpa [applySigns] using h
  | cons c cs ih =>
    intro s s1 s2 n v hc hp h
    obtain ⟨t, s3, hg, hk, hp1⟩ := hp
    have h1 := ih s3 s1 s2 n v (fun c1 hc1 => hc c1 (List.mem_cons_of_mem _ hc1)) hp1 h
    have e1 : n + (c :: cs).length = (n + cs.length) + 1 := by simp; omega
    rw [e1]
    rcases hc c (List.mem_cons_self _ _) with hc1 | hc1
    · subst hc1
      rw [primary_plus A _ s s3 s2 t _ hg hk h1]
      simp [applySigns]
    · subst hc1
      rw [primary_minus A _ s s3 s2 t _ hg hk h1]
      simp [applySigns]

/-- C8.  Whenever `primary` reads `(`, the enclosed expression evaluates to
`v` and the next Token is `)`, `primary` returns `v` and has consumed the
`)`.  So on input that lexes as a parenthesised conventional tree `e`
followed by `*` or `/` and an operand `r`, the operator is applied to the
value of the whole of `e`. -/
theorem parenthesised_operand (A : DoubleOps D) :
    (∀ (n : Nat) (s s1 s2 s3 : State D) (t t1 : Token D) (v : D),
        Token_stream.get A s = .ok (t, s1) → t.kind = '(' →
        expression A n s1 = .ok (v, s2) →
        Token_stream.get A s2 = .ok (t1, s3) → t1.kind = ')' →
        primary A (n + 1) s = .ok (v, s3)) ∧
      (∀ (e r : Expr D) (str : List Char) (s : State D) (σ1 : IStream) (k : Nat),
        e.conventional = true → r.conventional = true → r.level = 0 →
        e.noZeroDivisor A = true → r.noZeroDivisor A = true → s.ts.full = false →
        tokenize A k ⟨str, false⟩ =
          .ok ((Expr.mul (.paren e) r).toks A ++ [Token.ofChar A print], σ1) →
        Evaluates A str s (.ok (A.mul (e.value A) (r.value A)))) ∧
      (∀ (e r : Expr D) (str : List Char) (s : State D) (σ1 : IStream) (k : Nat),
        e.conventional = true → r.conventional = true → r.level = 0 →
        e.noZeroDivisor A = true → r.noZeroDivisor A = true →
        A.isZero (r.value A) = false → s.ts.full = false →
        tokenize A k ⟨str, false⟩ =
          .ok ((Expr.div (.paren e) r).toks A ++ [Token.ofChar A print], σ1) →
        Evaluates A str s (.ok (A.div (e.value A) (r.value A)))) := by
  refine ⟨?_, ?_, ?_⟩
  · intro n s s1 s2 s3 t t1 v hg hk he hg1 hk1
    exact primary_paren A n s s1 s2 s3 t t1 v hg hk he hg1 hk1
  · intro e r str s σ1 k he hr hl hze hzr hs hlex
    have h := evaluates_tree A (.mul (.paren e) r) str s σ1 k
      (by have h0 : (Expr.paren e).level = 0 := rfl
          simp [Expr.conventional, he, hr, hl, h0]) hs hlex
    simpa [Expr.noZeroDivisor, Expr.value, hze, hzr] using h
  · intro e r str s σ1 k he hr hl hze hzr hz hs hlex
    have h := evaluates_tree A (.div (.paren e) r) str s σ1 k
      (by have h0 : (Expr.paren e).level = 0 := rfl
          simp [Expr.conventional, he, hr, hl, h0]) hs hlex
    simpa [Expr.noZeroDivisor, Expr.value, hze, hzr, hz] using h

/-- Witness of C8: `(2+3)*4;` gives 20 and `(2+3)/4;` gives 5/4, whereas
`2+3*4;` gives 14; and `primary` on `(2+3)*4;` returns 5 and leaves `*4;`. -/
theorem parenthesised_operand_witness :
    Evaluates ratOps (chars "(2+3)*4;") (State.init ratOps) (.ok 20) ∧
      Evaluates ratOps (chars "(2+3)/4;") (State.init ratOps) (.ok (mkRat 5 4)) ∧
      outcome (calculate_expression ratOps 20 (chars "2+3*4;") (State.init ratOps)) = .ok 14 ∧
      primary ratOps 10 ⟨Token_stream.init ratOps, ⟨chars "(2+3)*4;", false⟩⟩ =
        .ok (5, ⟨⟨false, ⟨')', 0⟩⟩, ⟨chars "*4;", false⟩⟩) :=
  ⟨(parenthesised_operand ratOps).2.1 (.add (.num 2) (.num 3)) (.num 4) (chars "(2+3)*4;")
      (State.init ratOps) ⟨[], false⟩ 8 (by decide) (by decide) (by decide) (by decide)
      (by decide) (by decide) (by decide),
    (parenthesised_operand ratOps).2.2 (.add (.num 2) (.num 3)) (.num 4) (chars "(2+3)/4;")
      (State.init ratOps) ⟨[], false⟩ 8 (by decide) (by decide) (by decide) (by decide)
      (by decide) (by decide) (by decide) (by decide),
    by decide,
    (parenthesised_operand ratOps).1 9 ⟨Token_stream.init ratOps, ⟨chars "(2+3)*4;", false⟩⟩
      _ _ _ _ _ 5 rfl rfl rfl rfl rfl⟩

/-- C9.  Unary operators chain: when the next Token is `-` and `primary` on
what follows returns `v`, `primary` returns `-v`; when it is `+`, `primary`
returns `v`; in both cases it ends in the state in which the inner `primary`
ends.  Hence a chain of signs in front of an operand of value `v` yields `v`
negated once per `-` of the chain. -/
theorem unary_signs_chain (A : DoubleOps D) :
    (∀ (n : Nat) (s s1 s2 : State D) (t : Token D) (v : D),
        Token_stream.get A s = .ok (t, s1) → t.kind = '-' →
        primary A n s1 = .ok (v, s2) → primary A (n + 1) s = .ok (A.neg v, s2)) ∧
      (∀ (n : Nat) (s s1 s2 : State D) (t : Token D) (v : D),
        Token_stream.get A s = .ok (t, s1) → t.kind = '+' →
        primary A n s1 = .ok (v, s2) → primary A (n + 1) s = .ok (v, s2)) ∧
      (∀ (signs : List Char) (s s1 s2 : State D) (n : Nat) (v : D),
        (∀ c ∈ signs, c = '+' ∨ c = '-') → Pulls A s signs s1 →
        primary A n s1 = .ok (v, s2) →
        primary A (n + signs.length) s = .ok (applySigns A signs v, s2)) :=
  ⟨fun n s s1 s2 t v hg hk hp => primary_minus A n s s1 s2 t v hg hk hp,
    fun n s s1 s2 t v hg hk hp => primary_plus A n s s1 s2 t v hg hk hp,
    fun signs s s1 s2 n v hc hp h => primary_signs A signs s s1 s2 n v hc hp h⟩

/-- Witness of C9: `--5;` gives 5 and `-+5;` gives -5. -/
theorem unary_signs_chain_witness :
    primary ratOps 3 ⟨Token_stream.init ratOps, ⟨chars "--5;", false⟩⟩ =
        .ok (5, ⟨Token_stream.init ratOps, ⟨chars ";", false⟩⟩) ∧
      primary ratOps 3 ⟨Token_stream.init ratOps, ⟨chars "-+5;", false⟩⟩ =
        .ok (-5, ⟨Token_stream.init ratOps, ⟨chars ";", false⟩⟩) ∧
      primary ratOps 2 ⟨Token_stream.init ratOps, ⟨chars "-5;", false⟩⟩ =
        .ok (-5, ⟨Token_stream.init ratOps, ⟨chars ";", false⟩⟩) ∧
      primary ratOps 2 ⟨Token_stream.init ratOps, ⟨chars "+5;", false⟩⟩ =
        .ok (5, ⟨Token_stream.init ratOps, ⟨chars ";", false⟩⟩) ∧
      outcome (calculate_expression ratOps 20 (chars "--5;") (State.init ratOps)) = .ok 5 ∧
      outcome (calculate_expression ratOps 20 (chars "-+5;") (State.init ratOps)) =
        .ok (-5) :=
  ⟨(unary_signs_chain ratOps).2.2 ['-', '-'] _
      ⟨Token_stream.init ratOps, ⟨chars "5;", false⟩⟩ _ 1 5 (by decide)
      ⟨_, _, rfl, rfl, _, _, rfl, rfl, rfl⟩ rfl,
    (unary_signs_chain ratOps).2.2 ['-', '+'] _
      ⟨Token_stream.init ratOps, ⟨chars "5;", false⟩⟩ _ 1 5 (by decide)
      ⟨_, _, rfl, rfl, _, _, rfl, rfl, rfl⟩ rfl,
    (unary_signs_chain ratOps).1 1 _ ⟨Token_stream.init ratOps, ⟨chars "5;", false⟩⟩ _ _ 5
      rfl rfl rfl,
    (unary_signs_chain ratOps).2.1 1 _ ⟨Token_stream.init ratOps, ⟨chars "5;", false⟩⟩ _ _ 5
      rfl rfl rfl,
    by decide, by decide⟩

theorem get_badToken (A : DoubleOps D) (s : State D) (ch : Char) (is1 : IStream)
    (hf : s.ts.full = false) (hc : s.is.getChar = some (ch, is1))
    (h1 : isPunct ch = false) (h2 : isNumStart ch = false) :
    Token_stream.get A s = .error .badToken := by
  simp [Token_stream.get, hf, hc, h1, h2]

/-- C10, as stated, fails for a Token pulled from the buffer.  In the
evaluation of `2;@;` the call of `get` that `expression` makes after its
first `term` finds `;` in the buffer while the next character of the input is
`@`: it returns the `;`, and `calculate_expression` returns 2. -/
theorem buffered_pull_ignores_bad_character :
    Reaches ratOps (.calculate_expression 20 (chars "2;@;") (State.init ratOps))
        (.get ⟨⟨true, ⟨';', 0⟩⟩, ⟨chars "@;", false⟩⟩) ∧
      IStream.getChar ⟨chars "@;", false⟩ = some ('@', ⟨chars ";", false⟩) ∧
      isPunct '@' = false ∧ isNumStart '@' = false ∧
      Token_stream.get ratOps ⟨⟨true, ⟨';', 0⟩⟩, ⟨chars "@;", false⟩⟩ =
        .ok (⟨';', 0⟩, ⟨⟨false, ⟨';', 0⟩⟩, ⟨chars "@;", false⟩⟩) ∧
      outcome (calculate_expression ratOps 20 (chars "2;@;") (State.init ratOps)) = .ok 2 :=
  ⟨Relation.ReflTransGen.head (Invokes.calculate_skip 20 _ _ _ _ rfl)
      (Relation.ReflTransGen.head (Invokes.skip_expression 19 _ _ _ (by decide) rfl)
        (Relation.ReflTransGen.head (Invokes.expression_get 18 _ _ _ rfl)
          Relation.ReflTransGen.refl)),
    by decide, by decide, by decide, by decide, by decide⟩

/-- C10, amended.  Whenever, in the course of an evaluation, a Token is
pulled while the buffer is empty, and the next non-whitespace character that
the input stream delivers is not `;`, one of `( ) + - * / %`, a digit or `.`,
`Token_stream::get` throws "Bad token", and the exception reaches the
`catch` of `calculate_expression`. -/
theorem bad_token_fails (A : DoubleOps D) (fuel : Nat) (str : List Char) (s0 s : State D)
    (ch : Char) (is1 : IStream)
    (hr : Reaches A (.calculate_expression fuel str s0) (.get s))
    (hf : s.ts.full = false) (hc : s.is.getChar = some (ch, is1))
    (h1 : isPunct ch = false) (h2 : isNumStart ch = false) :
    Token_stream.get A s = .error .badToken ∧
      calculate_expression A fuel str s0 = .error .badToken := by
  have hg := get_badToken A s ch is1 hf hc h1 h2
  refine ⟨hg, calculate_expression_of_reaches A hr _ ?_⟩
  simp [Call.failure, hg]

/-- Witness of C10, amended: on `3+@2;` the exception "Bad token" reaches
the `catch` of `calculate_expression`. -/
theorem bad_token_fails_witness :
    calculate_expression ratOps 20 (chars "3+@2;") (State.init ratOps) = .error .badToken :=
  (bad_token_fails ratOps 20 (chars "3+@2;") (State.init ratOps)
    ⟨⟨false, ⟨'+', 0⟩⟩, ⟨chars "@2;", false⟩⟩ '@' ⟨chars "2;", false⟩
    (Relation.ReflTransGen.head (Invokes.calculate_skip 20 _ _ _ _ rfl)
      (Relation.ReflTransGen.head (Invokes.skip_expression 19 _ _ _ (by decide) rfl)
        (Relation.ReflTransGen.head (Invokes.expression_loop 18 _ _ _ _ _ rfl rfl)
          (Relation.ReflTransGen.head (Invokes.expressionLoop_plus_term 17 _ _ _ rfl)
            (Relation.ReflTransGen.head (Invokes.term_primary 16 _)
              (Relation.ReflTransGen.head (Invokes.primary_get 15 _)
                Relation.ReflTransGen.refl))))))
    rfl (by decide) (by decide) (by decide)).2


/-! ## Further claims -/

theorem primary_rparenExpected (A : DoubleOps D) (n : Nat) (s s1 s2 s3 : State D)
    (t t1 : Token D) (d : D) (hg : Token_stream.get A s = .ok (t, s1)) (hk : t.kind = '(')
    (he : expression A n s1 = .ok (d, s2)) (hg1 : Token_stream.get A s2 = .ok (t1, s3))
    (hk1 : t1.kind ≠ ')') : primary A (n + 1) s = .error .rparenExpected := by
  rw [primary, hg]
  simp [hk, he, hg1, hk1]

/-- Where "')' expected" comes from: whenever, in the course of an
evaluation, `primary` reads `(`, the enclosed expression evaluates
successfully and the next Token is not `)`, `primary` throws "')' expected",
and the exception reaches the `catch` of `calculate_expression`. -/
theorem unbalanced_parenthesis_fails (A : DoubleOps D) (fuel : Nat) (str : List Char)
    (s0 : State D) (n : Nat) (s s1 s2 s3 : State D) (t t1 : Token D) (d : D)
    (hr : Reaches A (.calculate_expression fuel str s0) (.primary (n + 1) s))
    (hg : Token_stream.get A s = .ok (t, s1)) (hk : t.kind = '(')
    (he : expression A n s1 = .ok (d, s2)) (hg1 : Token_stream.get A s2 = .ok (t1, s3))
    (hk1 : t1.kind ≠ ')') :
    primary A (n + 1) s = .error .rparenExpected ∧
      calculate_expression A fuel str s0 = .error .rparenExpected ∧
      Err.what .rparenExpected = some "')' expected" := by
  have hp := primary_rparenExpected A n s s1 s2 s3 t t1 d hg hk he hg1 hk1
  refine ⟨hp, calculate_expression_of_reaches A hr _ ?_, rfl⟩
  simp [Call.failure, hp]

/-- Example: `(1+2;` throws "')' expected". -/
theorem unbalanced_parenthesis_fails_witness :
    calculate_expression ratOps 20 (chars "(1+2;") (State.init ratOps) =
      .error .rparenExpected :=
  (unbalanced_parenthesis_fails ratOps 20 (chars "(1+2;") (State.init ratOps) 16
    ⟨⟨true, ⟨'(', 0⟩⟩, ⟨chars "1+2;", false⟩⟩ _ _ _ _ _ 3
    (Relation.ReflTransGen.head (Invokes.calculate_skip 20 _ _ _ _ rfl)
      (Relation.ReflTransGen.head (Invokes.skip_expression 19 _ _ _ (by decide) rfl)
        (Relation.ReflTransGen.head (Invokes.expression_term 18 _)
          (Relation.ReflTransGen.head (Invokes.term_primary 17 _)
            Relation.ReflTransGen.refl))))
    rfl rfl rfl rfl (by decide)).2.1

/-- C11.  On `(1+2;` the Token after the enclosed expression is `;`:
`primary` throws "')' expected", and the exception reaches the `catch` of
`calculate_expression`, which prints it.  The function then flows off its
end without a `return`, so its caller is handed a `double` of indeterminate
value and displays it: the failed evaluation does yield a number. -/
theorem unbalanced_parenthesis_hands_back_a_double :
    calculate_expression ratOps 20 (chars "(1+2;") (State.init ratOps) =
        .error .rparenExpected ∧
      Err.what .rparenExpected = some "')' expected" ∧
      received (calculate_expression ratOps 20 (chars "(1+2;") (State.init ratOps)) =
        some .indeterminate := by
  decide

/-- C12.  Pushback round trip: in a state with an empty buffer, `putback(t)`
succeeds, and the `get()` that follows returns exactly `t`, leaves the buffer
empty again and leaves the input stream as it was. -/
theorem putback_get_round_trip (A : DoubleOps D) (t : Token D) (s : State D)
    (h : s.ts.full = false) :
    ∃ s1 s2 : State D, Token_stream.putback t s = .ok s1 ∧
      Token_stream.get A s1 = .ok (t, s2) ∧ s2.ts.full = false ∧ s2.is = s.is := by
  refine ⟨⟨⟨true, t⟩, s.is⟩, ⟨⟨false, t⟩, s.is⟩, putback_of_empty t s h, ?_, rfl, rfl⟩
  simp [Token_stream.get]

/-- Witness of C12: the number Token 7.5 pushed back in front of `+1;`. -/
theorem putback_get_round_trip_witness :
    ∃ s1 s2 : State ℚ,
      Token_stream.putback ⟨'8', mkRat 15 2⟩
          ⟨Token_stream.init ratOps, ⟨chars "+1;", false⟩⟩ = .ok s1 ∧
        Token_stream.get ratOps s1 = .ok (⟨'8', mkRat 15 2⟩, s2) ∧ s2.ts.full = false ∧
        s2.is = ⟨chars "+1;", false⟩ :=
  putback_get_round_trip ratOps ⟨'8', mkRat 15 2⟩
    ⟨Token_stream.init ratOps, ⟨chars "+1;", false⟩⟩ rfl

/-- C15.  On the empty input, which the caller turns into `;`, the loop over
leading terminators pulls a second Token when the stream is exhausted: the
extraction `is>>ch` stores nothing, no character is consumed, and `get`
switches on an uninitialised `ch`.  The model ends the run there, for every
amount of fuel; the source gives no guarantee that the loop ends. -/
theorem empty_input_pulls_at_exhausted_stream (fuel : Nat) :
    Reaches ratOps (.calculate_expression (fuel + 1) (chars ";") (State.init ratOps))
        (.get ⟨Token_stream.init ratOps, ⟨[], false⟩⟩) ∧
      IStream.getChar ⟨[], false⟩ = none ∧
      Token_stream.get ratOps ⟨Token_stream.init ratOps, ⟨[], false⟩⟩ = .error .noChar ∧
      calculate_expression ratOps (fuel + 1) (chars ";") (State.init ratOps) =
        .error .noChar :=
  ⟨Relation.ReflTransGen.head (Invokes.calculate_skip (fuel + 1) _ _ _ _ rfl)
      (Relation.ReflTransGen.head (Invokes.skip_get fuel _ _ rfl)
        Relation.ReflTransGen.refl),
    rfl, rfl, rfl⟩

/-- C16.  Where the input is exhausted at a point at which the evaluator pulls
another Token, no syntax error is thrown: `get` goes on with an uninitialised
`ch`, which the model records as `noChar`, an outcome that is none of the
errors of the source.  So it is for `;;;`, and for `3+` and `(1+2` without
terminator. -/
theorem exhausted_input_throws_nothing :
    outcome (calculate_expression ratOps 20 (chars ";;;") (State.init ratOps)) =
        .error .noChar ∧
      outcome (calculate_expression ratOps 20 (chars "3+") (State.init ratOps)) =
        .error .noChar ∧
      outcome (calculate_expression ratOps 20 (chars "(1+2") (State.init ratOps)) =
        .error .noChar ∧
      Err.what .noChar = none := by
  decide

/-- C17.  On a lone `.` the extraction `is>>val` fails, and `get` returns a
number Token all the same, with the value 0 that the failed extraction stored,
and leaves the stream failed.  No error is thrown for the malformed literal:
the evaluations of `.;` and `1+.;` go on to pull from the failed stream. -/
theorem malformed_literal_yields_number_token :
    (ratOps.extract (chars ".;")).ok = false ∧
      Token_stream.get ratOps ⟨Token_stream.init ratOps, ⟨chars ".;", false⟩⟩ =
        .ok (⟨number, 0⟩, ⟨Token_stream.init ratOps, ⟨chars ";", true⟩⟩) ∧
      outcome (calculate_expression ratOps 20 (chars ".;") (State.init ratOps)) =
        .error .noChar ∧
      outcome (calculate_expression ratOps 20 (chars "1+.;") (State.init ratOps)) =
        .error .noChar := by
  decide

theorem tmod_inIntRange (i1 i2 : Int) (h1 : InIntRange i1) :
    InIntRange (Int.tmod i1 i2) := by
  unfold InIntRange intMin intMax at *
  have key : ∀ m n : Nat, m % n ≤ m := fun m n => Nat.mod_le m n
  cases i1 with
  | ofNat m =>
    cases i2 with
    | ofNat n =>
      have := key m n
      simp only [Int.tmod, Int.ofNat_eq_coe] at *
      omega
    | negSucc n =>
      have := key m n.succ
      simp only [Int.tmod, Int.ofNat_eq_coe] at *
      omega
  | negSucc m =>
    cases i2 with
    | ofNat n =>
      have := key m.succ n
      simp only [Int.tmod, Int.ofNat_eq_coe, Int.negSucc_eq] at *
      omega
    | negSucc n =>
      have := key m.succ n.succ
      simp only [Int.tmod, Int.ofNat_eq_coe, Int.negSucc_eq] at *
      omega

/-- C19.  On `-2147483648 % -1;` both truncated operands are values of `int`,
and the integer operation that `term` applies to them, `i1/i2`, has the
quotient 2147483648, one more than the greatest `int`: the division of the
source overflows, and the run ends at that undefined division.  The remainder
of the same operands is 0. -/
theorem percent_overflows_int :
    ratOps.toInt (-2147483648) = intMin ∧ ratOps.toInt (-1) = -1 ∧
      InIntRange intMin ∧ InIntRange (-1) ∧
      Int.tdiv intMin (-1) = intMax + 1 ∧ ¬ InIntRange (Int.tdiv intMin (-1)) ∧
      Int.tmod intMin (-1) = 0 ∧
      outcome (calculate_expression ratOps 20 (chars "-2147483648 % -1;")
        (State.init ratOps)) = .error .intUndefined := by
  refine ⟨by decide, by decide, ?_, ?_, by decide, ?_, by decide, by decide⟩
  · unfold InIntRange; decide
  · unfold InIntRange; decide
  · unfold InIntRange; decide

/-! ## Parse trees of the grammar of the source -/

theorem ast_toks_ne_nil (A : DoubleOps D) (e : Ast D) : e.toks A ≠ [] := by
  cases e <;> simp [Ast.toks]

theorem chainParses_of_primaryParses (A : DoubleOps D) (e : Ast D)
    (h : PrimaryParses A e) : ChainParses A e := by
  obtain ⟨N, hN⟩ := h
  refine ⟨N, 1, fun s t σ1 hf m hm => ?_⟩
  obtain ⟨σ2, hf1, hl⟩ := feeds_append A (ast_toks_ne_nil A e) hf
  have hl := lexes_single A hl
  obtain ⟨b, hb⟩ := hN s σ2 hf1 m hm
  refine ⟨b, ?_⟩
  rw [term, hb]
  unfold Ast.run
  cases he : e.eval A with
  | error x => rfl
  | ok v => simp [get_of_lexToken A b hl]

theorem termParses_of_chainParses (A : DoubleOps D) (e : Ast D) (h : ChainParses A e) :
    TermParses A e := by
  obtain ⟨N, k, hN⟩ := h
  refine ⟨N + 1 + k, fun s t σ1 h1 h2 h3 hf n hn => ?_⟩
  obtain ⟨m, rfl⟩ : ∃ m, n = (m + 1) + k := ⟨n - k - 1, by omega⟩
  obtain ⟨b, hb⟩ := hN s t σ1 hf (m + 1) (by omega)
  rw [hb]
  unfold Ast.run
  cases he : e.eval A with
  | error x => rfl
  | ok v => simp [termLoop_done A m _ t b σ1 h1 h2 h3]

theorem expressionParses_of_termParses (A : DoubleOps D) (e : Ast D)
    (h : TermParses A e) : ExpressionParses A e := by
  obtain ⟨N, hN⟩ := h
  refine ⟨N, 1, fun s t σ1 h1 h2 h3 hf m hm => ⟨t, ?_⟩⟩
  rw [expression, hN s t σ1 h1 h2 h3 hf m hm]
  unfold Ast.run
  cases he : e.eval A with
  | error x => rfl
  | ok v => simp [Token_stream.get]

theorem expression_result_ast (A : DoubleOps D) (e : Ast D) (h : ExpressionParses A e) :
    ∃ N, ∀ (s : State D) (t : Token D) (σ1 : IStream),
      t.kind ≠ '*' → t.kind ≠ '/' → t.kind ≠ '%' → t.kind ≠ '+' → t.kind ≠ '-' →
      Feeds A s (e.toks A ++ [t]) σ1 →
      ∀ n, N ≤ n → expression A n s = e.run A (fun v => .ok (v, ⟨⟨true, t⟩, σ1⟩)) := by
  obtain ⟨N, k, hN⟩ := h
  refine ⟨N + 1 + k, fun s t σ1 h1 h2 h3 h4 h5 hf n hn => ?_⟩
  obtain ⟨m, rfl⟩ : ∃ m, n = (m + 1) + k := ⟨n - k - 1, by omega⟩
  obtain ⟨b, hb⟩ := hN s t σ1 h1 h2 h3 hf (m + 1) (by omega)
  rw [hb]
  unfold Ast.run
  cases he : e.eval A with
  | error x => rfl
  | ok v => simp [expressionLoop_done A m _ t b σ1 h4 h5]

theorem primaryParses_num (A : DoubleOps D) (v : D) : PrimaryParses A (.num v) := by
  refine ⟨1, fun s σ1 hf n hn => ?_⟩
  obtain ⟨b, σ2, hg, hl⟩ := feeds_cons A hf
  cases hl
  refine ⟨b, ?_⟩
  obtain ⟨m, rfl⟩ : ∃ m, n = m + 1 := ⟨n - 1, by omega⟩
  rw [primary, hg]
  simp [Ast.run, Ast.eval, number]

theorem primaryParses_paren (A : DoubleOps D) (e : Ast D) (h : ExpressionParses A e) :
    PrimaryParses A (.paren e) := by
  obtain ⟨N, hN⟩ := expression_result_ast A e h
  refine ⟨N + 1, fun s σ1 hf n hn => ⟨Token.ofChar A ')', ?_⟩⟩
  obtain ⟨b, σ2, hg, hl⟩ := feeds_cons A hf
  have hf1 : Feeds A ⟨⟨false, b⟩, σ2⟩ (e.toks A ++ [Token.ofChar A ')']) σ1 :=
    (feeds_of_empty A b σ2 σ1 _).2 hl
  obtain ⟨m, rfl⟩ : ∃ m, n = m + 1 := ⟨n - 1, by omega⟩
  have hN := hN _ (Token.ofChar A ')') σ1
    (by simp [Token.ofChar]) (by simp [Token.ofChar]) (by simp [Token.ofChar])
    (by simp [Token.ofChar]) (by simp [Token.ofChar]) hf1 m (by omega)
  rw [primary, hg]
  simp only [Token.ofChar, if_true]
  simp only [Token.ofChar] at hN
  rw [hN]
  unfold Ast.run
  simp only [Ast.eval]
  cases he : e.eval A with
  | error x => rfl
  | ok v => simp [Token_stream.get]

theorem primaryParses_neg (A : DoubleOps D) (e : Ast D) (h : PrimaryParses A e) :
    PrimaryParses A (.neg e) := by
  obtain ⟨N, hN⟩ := h
  refine ⟨N + 1, fun s σ1 hf n hn => ?_⟩
  obtain ⟨b, σ2, hg, hl⟩ := feeds_cons A hf
  obtain ⟨m, rfl⟩ : ∃ m, n = m + 1 := ⟨n - 1, by omega⟩
  obtain ⟨b1, hb1⟩ := hN ⟨⟨false, b⟩, σ2⟩ σ1 ((feeds_of_empty A b σ2 σ1 _).2 hl) m (by omega)
  refine ⟨b1, ?_⟩
  rw [primary, hg]
  simp only [Token.ofChar, number]
  rw [hb1]
  unfold Ast.run
  simp only [Ast.eval]
  cases he : e.eval A with
  | error x => simp
  | ok v => simp

theorem primaryParses_pos (A : DoubleOps D) (e : Ast D) (h : PrimaryParses A e) :
    PrimaryParses A (.pos e) := by
  obtain ⟨N, hN⟩ := h
  refine ⟨N + 1, fun s σ1 hf n hn => ?_⟩
  obtain ⟨b, σ2, hg, hl⟩ := feeds_cons A hf
  obtain ⟨m, rfl⟩ : ∃ m, n = m + 1 := ⟨n - 1, by omega⟩
  obtain ⟨b1, hb1⟩ := hN ⟨⟨false, b⟩, σ2⟩ σ1 ((feeds_of_empty A b σ2 σ1 _).2 hl) m (by omega)
  refine ⟨b1, ?_⟩
  rw [primary, hg]
  simp only [Token.ofChar, number]
  rw [hb1]
  unfold Ast.run
  simp only [Ast.eval]
  cases he : e.eval A with
  | error x => simp
  | ok v => simp

/-- Splits the Tokens of a binary node of an `Ast`, followed by one more
Token. -/
theorem feeds_binary_ast (A : DoubleOps D) {s : State D} {l r : Ast D} {op t : Token D}
    {σ1 : IStream} (hf : Feeds A s ((l.toks A ++ op :: r.toks A) ++ [t]) σ1) :
    ∃ σ2 σ3, Feeds A s (l.toks A ++ [op]) σ2 ∧ Lexes A σ2 (r.toks A) σ3 ∧
      lexToken A σ3 = .ok (t, σ1) := by
  have e1 : (l.toks A ++ op :: r.toks A) ++ [t] = (l.toks A ++ [op]) ++ (r.toks A ++ [t]) := by
    simp
  rw [e1] at hf
  obtain ⟨σ2, h1, h2⟩ := feeds_append A (by simp) hf
  obtain ⟨σ3, h3, h4⟩ := (lexes_append A _ _ σ2 σ1).1 h2
  exact ⟨σ2, σ3, h1, h3, lexes_single A h4⟩

theorem chainParses_mul (A : DoubleOps D) (l r : Ast D) (hl : ChainParses A l)
    (hr : PrimaryParses A r) : ChainParses A (.mul l r) := by
  obtain ⟨Nl, kl, hNl⟩ := hl
  obtain ⟨Nr, hNr⟩ := hr
  refine ⟨max Nl Nr, kl + 1, fun s t σ1 hf m hm => ?_⟩
  obtain ⟨σ2, σ3, h1, h2, h3⟩ := feeds_binary_ast A hf
  obtain ⟨b1, hb1⟩ := hNl s _ σ2 h1 (m + 1) (by omega)
  obtain ⟨b2, hb2⟩ := hNr ⟨⟨false, b1⟩, σ2⟩ σ3 ((feeds_of_empty A b1 σ2 σ3 _).2 h2) m
    (by omega)
  refine ⟨b2, ?_⟩
  have e1 : m + (kl + 1) = m + 1 + kl := by omega
  rw [e1, hb1]
  unfold Ast.run at hb2 ⊢
  simp only [Ast.eval]
  cases hel : l.eval A with
  | error x => rfl
  | ok a =>
    simp only []
    rw [termLoop]
    simp only [Token.ofChar, if_true]
    rw [hb2]
    cases her : r.eval A with
    | error x => rfl
    | ok b => simp [get_of_lexToken A b2 h3]

theorem chainParses_div (A : DoubleOps D) (l r : Ast D) (hl : ChainParses A l)
    (hr : PrimaryParses A r) : ChainParses A (.div l r) := by
  obtain ⟨Nl, kl, hNl⟩ := hl
  obtain ⟨Nr, hNr⟩ := hr
  refine ⟨max Nl Nr, kl + 1, fun s t σ1 hf m hm => ?_⟩
  obtain ⟨σ2, σ3, h1, h2, h3⟩ := feeds_binary_ast A hf
  obtain ⟨b1, hb1⟩ := hNl s _ σ2 h1 (m + 1) (by omega)
  obtain ⟨b2, hb2⟩ := hNr ⟨⟨false, b1⟩, σ2⟩ σ3 ((feeds_of_empty A b1 σ2 σ3 _).2 h2) m
    (by omega)
  refine ⟨b2, ?_⟩
  have e1 : m + (kl + 1) = m + 1 + kl := by omega
  rw [e1, hb1]
  unfold Ast.run at hb2 ⊢
  simp only [Ast.eval]
  cases hel : l.eval A with
  | error x => rfl
  | ok a =>
    simp only []
    rw [termLoop]
    simp only [Token.ofChar]
    rw [hb2]
    cases her : r.eval A with
    | error x => simp
    | ok d =>
      by_cases hz : A.isZero d = true
      · simp [hz]
      · simp [hz, get_of_lexToken A b2 h3]

theorem termParses_mod (A : DoubleOps D) (l r : Ast D) (hl : ChainParses A l)
    (hr : TermParses A r) : TermParses A (.mod l r) := by
  obtain ⟨Nl, kl, hNl⟩ := hl
  obtain ⟨Nr, hNr⟩ := hr
  refine ⟨max Nl Nr + 2 + kl, fun s t σ1 t1 t2 t3 hf n hn => ?_⟩
  obtain ⟨m, rfl⟩ : ∃ m, n = (m + 1) + 1 + kl := ⟨n - kl - 2, by omega⟩
  obtain ⟨σ2, σ3, h1, h2, h3⟩ := feeds_binary_ast A hf
  obtain ⟨b1, hb1⟩ := hNl s _ σ2 h1 (m + 1 + 1) (by omega)
  have hf2 : Feeds A ⟨⟨false, b1⟩, σ2⟩ (r.toks A ++ [t]) σ1 := by
    rw [feeds_of_empty, lexes_append]
    exact ⟨σ3, h2, σ1, h3, rfl⟩
  have hb2 := hNr ⟨⟨false, b1⟩, σ2⟩ t σ1 t1 t2 t3 hf2 (m + 1) (by omega)
  rw [hb1]
  unfold Ast.run at hb2 ⊢
  simp only [Ast.eval]
  cases hel : l.eval A with
  | error x => rfl
  | ok a =>
    simp only []
    rw [termLoop]
    simp only [Token.ofChar]
    rw [hb2]
    by_cases ha : InIntRange (A.toInt a)
    · cases her : r.eval A with
      | error x => simp [ha]
      | ok b =>
        by_cases hb : InIntRange (A.toInt b)
        · by_cases hz : A.toInt b = 0
          · simp [ha, hz, inIntRange_zero]
          · by_cases hq : InIntRange (Int.tdiv (A.toInt a) (A.toInt b))
            · simp [ha, hb, hz, hq, Token_stream.get, termLoop_done A m _ t t σ1 t1 t2 t3]
            · simp [ha, hb, hz, hq]
        · simp [ha, hb]
    · simp [ha]

theorem expressionParses_add (A : DoubleOps D) (l r : Ast D) (hl : ExpressionParses A l)
    (hr : TermParses A r) : ExpressionParses A (.add l r) := by
  obtain ⟨Nl, kl, hNl⟩ := hl
  obtain ⟨Nr, hNr⟩ := hr
  refine ⟨max Nl Nr, kl + 1, fun s t σ1 t1 t2 t3 hf m hm => ⟨t, ?_⟩⟩
  obtain ⟨σ2, σ3, h1, h2, h3⟩ := feeds_binary_ast A hf
  obtain ⟨b1, hb1⟩ := hNl s (Token.ofChar A '+') σ2 (by simp [Token.ofChar])
    (by simp [Token.ofChar]) (by simp [Token.ofChar]) h1 (m + 1) (by omega)
  have hf2 : Feeds A ⟨⟨false, b1⟩, σ2⟩ (r.toks A ++ [t]) σ1 := by
    rw [feeds_of_empty, lexes_append]
    exact ⟨σ3, h2, σ1, h3, rfl⟩
  have hb2 := hNr ⟨⟨false, b1⟩, σ2⟩ t σ1 t1 t2 t3 hf2 m (by omega)
  have e1 : m + (kl + 1) = m + 1 + kl := by omega
  rw [e1, hb1]
  unfold Ast.run at hb2 ⊢
  simp only [Ast.eval]
  cases hel : l.eval A with
  | error x => rfl
  | ok a =>
    simp only []
    rw [expressionLoop]
    simp only [Token.ofChar, if_true]
    rw [hb2]
    cases her : r.eval A with
    | error x => rfl
    | ok b => simp [Token_stream.get]

theorem expressionParses_sub (A : DoubleOps D) (l r : Ast D) (hl : ExpressionParses A l)
    (hr : TermParses A r) : ExpressionParses A (.sub l r) := by
  obtain ⟨Nl, kl, hNl⟩ := hl
  obtain ⟨Nr, hNr⟩ := hr
  refine ⟨max Nl Nr, kl + 1, fun s t σ1 t1 t2 t3 hf m hm => ⟨t, ?_⟩⟩
  obtain ⟨σ2, σ3, h1, h2, h3⟩ := feeds_binary_ast A hf
  obtain ⟨b1, hb1⟩ := hNl s (Token.ofChar A '-') σ2 (by simp [Token.ofChar])
    (by simp [Token.ofChar]) (by simp [Token.ofChar]) h1 (m + 1) (by omega)
  have hf2 : Feeds A ⟨⟨false, b1⟩, σ2⟩ (r.toks A ++ [t]) σ1 := by
    rw [feeds_of_empty, lexes_append]
    exact ⟨σ3, h2, σ1, h3, rfl⟩
  have hb2 := hNr ⟨⟨false, b1⟩, σ2⟩ t σ1 t1 t2 t3 hf2 m (by omega)
  have e1 : m + (kl + 1) = m + 1 + kl := by omega
  rw [e1, hb1]
  unfold Ast.run at hb2 ⊢
  simp only [Ast.eval]
  cases hel : l.eval A with
  | error x => rfl
  | ok a =>
    simp only []
    rw [expressionLoop]
    simp only [Token.ofChar]
    rw [hb2]
    cases her : r.eval A with
    | error x => simp
    | ok b => simp [Token_stream.get]

/-- On the Tokens of a parse tree of the grammar of the source, each level of
the evaluator consumes exactly the Tokens of the tree and computes what the
tree evaluates to. -/
theorem parses_of_grammatical (A : DoubleOps D) (e : Ast D) :
    e.grammatical = true →
      (e.level = 0 → PrimaryParses A e) ∧ (e.level ≤ 1 → ChainParses A e) ∧
        (e.level ≤ 2 → TermParses A e) ∧ ExpressionParses A e := by
  induction e with
  | num v =>
    intro _
    have hp := primaryParses_num A v
    have hc := chainParses_of_primaryParses A _ hp
    have ht := termParses_of_chainParses A _ hc
    exact ⟨fun _ => hp, fun _ => hc, fun _ => ht, expressionParses_of_termParses A _ ht⟩
  | paren e ih =>
    intro hg
    have hp := primaryParses_paren A e (ih (by simpa [Ast.grammatical] using hg)).2.2.2
    have hc := chainParses_of_primaryParses A _ hp
    have ht := termParses_of_chainParses A _ hc
    exact ⟨fun _ => hp, fun _ => hc, fun _ => ht, expressionParses_of_termParses A _ ht⟩
  | neg e ih =>
    intro hg
    simp only [Ast.grammatical, Bool.and_eq_true, decide_eq_true_eq] at hg
    have hp := primaryParses_neg A e ((ih hg.1).1 hg.2)
    have hc := chainParses_of_primaryParses A _ hp
    have ht := termParses_of_chainParses A _ hc
    exact ⟨fun _ => hp, fun _ => hc, fun _ => ht, expressionParses_of_termParses A _ ht⟩
  | pos e ih =>
    intro hg
    simp only [Ast.grammatical, Bool.and_eq_true, decide_eq_true_eq] at hg
    have hp := primaryParses_pos A e ((ih hg.1).1 hg.2)
    have hc := chainParses_of_primaryParses A _ hp
    have ht := termParses_of_chainParses A _ hc
    exact ⟨fun _ => hp, fun _ => hc, fun _ => ht, expressionParses_of_termParses A _ ht⟩
  | add l r ihl ihr =>
    intro hg
    simp only [Ast.grammatical, Bool.and_eq_true, decide_eq_true_eq] at hg
    refine ⟨fun h => by simp [Ast.level] at h, fun h => by simp [Ast.level] at h,
      fun h => by simp [Ast.level] at h, ?_⟩
    exact expressionParses_add A l r (ihl hg.1.1).2.2.2 ((ihr hg.1.2).2.2.1 hg.2)
  | sub l r ihl ihr =>
    intro hg
    simp only [Ast.grammatical, Bool.and_eq_true, decide_eq_true_eq] at hg
    refine ⟨fun h => by simp [Ast.level] at h, fun h => by simp [Ast.level] at h,
      fun h => by simp [Ast.level] at h, ?_⟩
    exact expressionParses_sub A l r (ihl hg.1.1).2.2.2 ((ihr hg.1.2).2.2.1 hg.2)
  | mul l r ihl ihr =>
    intro hg
    simp only [Ast.grammatical, Bool.and_eq_true, decide_eq_true_eq] at hg
    have hc := chainParses_mul A l r ((ihl hg.1.1.1).2.1 hg.1.2) ((ihr hg.1.1.2).1 hg.2)
    have ht := termParses_of_chainParses A _ hc
    exact ⟨fun h => by simp [Ast.level] at h, fun _ => hc, fun _ => ht,
      expressionParses_of_termParses A _ ht⟩
  | div l r ihl ihr =>
    intro hg
    simp only [Ast.grammatical, Bool.and_eq_true, decide_eq_true_eq] at hg
    have hc := chainParses_div A l r ((ihl hg.1.1.1).2.1 hg.1.2) ((ihr hg.1.1.2).1 hg.2)
    have ht := termParses_of_chainParses A _ hc
    exact ⟨fun h => by simp [Ast.level] at h, fun _ => hc, fun _ => ht,
      expressionParses_of_termParses A _ ht⟩
  | mod l r ihl ihr =>
    intro hg
    simp only [Ast.grammatical, Bool.and_eq_true, decide_eq_true_eq] at hg
    have ht := termParses_mod A l r ((ihl hg.1.1.1).2.1 hg.1.2) ((ihr hg.1.1.2).2.2.1 hg.2)
    exact ⟨fun h => by simp [Ast.level] at h, fun h => by simp [Ast.level] at h, fun _ => ht,
      expressionParses_of_termParses A _ ht⟩

/-- The first Token of a tree is not the terminator. -/
theorem ast_toks_head (A : DoubleOps D) (e : Ast D) :
    ∃ t l, e.toks A = t :: l ∧ t.kind ≠ ';' := by
  induction e with
  | num v => exact ⟨_, _, rfl, by simp [number]⟩
  | paren e _ => exact ⟨_, _, rfl, by simp [Token.ofChar]⟩
  | neg e _ => exact ⟨_, _, rfl, by simp [Token.ofChar]⟩
  | pos e _ => exact ⟨_, _, rfl, by simp [Token.ofChar]⟩
  | add l r ihl _ =>
    obtain ⟨t, l1, h1, h2⟩ := ihl
    exact ⟨t, l1 ++ Token.ofChar A '+' :: r.toks A, by simp [Ast.toks, h1], h2⟩
  | sub l r ihl _ =>
    obtain ⟨t, l1, h1, h2⟩ := ihl
    exact ⟨t, l1 ++ Token.ofChar A '-' :: r.toks A, by simp [Ast.toks, h1], h2⟩
  | mul l r ihl _ =>
    obtain ⟨t, l1, h1, h2⟩ := ihl
    exact ⟨t, l1 ++ Token.ofChar A '*' :: r.toks A, by simp [Ast.toks, h1], h2⟩
  | div l r ihl _ =>
    obtain ⟨t, l1, h1, h2⟩ := ihl
    exact ⟨t, l1 ++ Token.ofChar A '/' :: r.toks A, by simp [Ast.toks, h1], h2⟩
  | mod l r ihl _ =>
    obtain ⟨t, l1, h1, h2⟩ := ihl
    exact ⟨t, l1 ++ Token.ofChar A '%' :: r.toks A, by simp [Ast.toks, h1], h2⟩

/-- On input that lexes as the Tokens of a parse tree of the grammar of the
source followed by a Token that is no operator, `calculate_expression` ends
with what the tree evaluates to, and leaves that Token in the buffer; what
follows it in the stream is not read. -/
theorem calculate_expression_ast (A : DoubleOps D) (e : Ast D)
    (hg : e.grammatical = true) :
    ∃ N, ∀ (str : List Char) (s : State D) (t : Token D) (σ1 : IStream),
      s.ts.full = false →
      t.kind ≠ '*' → t.kind ≠ '/' → t.kind ≠ '%' → t.kind ≠ '+' → t.kind ≠ '-' →
      Lexes A ⟨str, false⟩ (e.toks A ++ [t]) σ1 →
      ∀ fuel, N ≤ fuel →
        calculate_expression A fuel str s = e.run A (fun v => .ok (v, ⟨⟨true, t⟩, σ1⟩)) := by
  obtain ⟨N, hN⟩ := expression_result_ast A e (parses_of_grammatical A e hg).2.2.2
  refine ⟨N + 1, fun str s t σ1 hs t1 t2 t3 t4 t5 hl fuel hfuel => ?_⟩
  obtain ⟨n, rfl⟩ : ∃ n, fuel = n + 1 := ⟨fuel - 1, by omega⟩
  obtain ⟨⟨full, b⟩, σ⟩ := s
  cases hs
  obtain ⟨t0, l, h1, h2⟩ := ast_toks_head A e
  have hl0 := hl
  rw [h1] at hl
  obtain ⟨σ2, h3, h4⟩ := hl
  unfold calculate_expression
  rw [get_of_lexToken A b h3]
  simp only []
  rw [skipTerminators, if_neg h2]
  simp only [Token_stream.putback]
  have hf : Feeds A ⟨⟨true, t0⟩, σ2⟩ (e.toks A ++ [t]) σ1 := by
    rw [h1]
    exact (feeds_of_full A t0 σ2 σ1 _).2 h4
  have := hN ⟨⟨true, t0⟩, σ2⟩ t σ1 t1 t2 t3 t4 t5 hf n (by omega)
  simpa using this

theorem evaluates_ast (A : DoubleOps D) (e : Ast D) (str : List Char) (s : State D)
    (t : Token D) (σ1 : IStream) (k : Nat) (hg : e.grammatical = true)
    (hs : s.ts.full = false)
    (t1 : t.kind ≠ '*') (t2 : t.kind ≠ '/') (t3 : t.kind ≠ '%') (t4 : t.kind ≠ '+')
    (t5 : t.kind ≠ '-')
    (hlex : tokenize A k ⟨str, false⟩ = .ok (e.toks A ++ [t], σ1)) :
    Evaluates A str s (e.eval A) := by
  obtain ⟨N, hN⟩ := calculate_expression_ast A e hg
  refine ⟨N, fun fuel hfuel => ?_⟩
  rw [hN str s t σ1 hs t1 t2 t3 t4 t5 (lexes_of_tokenize A k _ _ _ hlex) fuel hfuel]
  unfold Ast.run
  cases he : e.eval A with
  | error x => rfl
  | ok v => rfl

/-- A tree with `%` at its root evaluates to a value only when both operands
do, their conversions are values of the 32-bit `int`, the right one is not 0
and the quotient is a value of `int`. -/
theorem ast_eval_mod_ok (A : DoubleOps D) (l r : Ast D) (v : D)
    (h : (Ast.mod l r).eval A = .ok v) :
    ∃ a x : D, l.eval A = .ok a ∧ r.eval A = .ok x ∧
      InIntRange (A.toInt a) ∧ InIntRange (A.toInt x) ∧ A.toInt x ≠ 0 ∧
      InIntRange (Int.tdiv (A.toInt a) (A.toInt x)) ∧
      v = A.ofInt (Int.tdiv (A.toInt a) (A.toInt x)) := by
  simp only [Ast.eval] at h
  cases hl : l.eval A with
  | error e => rw [hl] at h; cases h
  | ok a =>
    rw [hl] at h
    simp only [] at h
    split at h
    · cases h
    · rename_i ha
      cases hr : r.eval A with
      | error e => rw [hr] at h; cases h
      | ok x =>
        rw [hr] at h
        simp only [] at h
        split at h
        · cases h
        · rename_i hx
          split at h
          · cases h
          · rename_i hz
            split at h
            · cases h
            · rename_i hq
              cases h
              exact ⟨a, x, rfl, rfl, not_not.mp ha, not_not.mp hx, hz, not_not.mp hq, rfl⟩

/-- The tree of `-2147483648 % -1` evaluates to no value: both operands
convert to values of `int`, and the quotient does not. -/
theorem ast_eval_overflow :
    (Ast.mod (.neg (.num 2147483648)) (.neg (.num 1)) : Ast ℚ).eval ratOps =
      .error .intUndefined := by
  decide

/-- C13.  The right operand of `%` is a whole term.  Let the input lex as a
chain `l`, a `%`, a term `r` (a chain such as `b * c` or `b / c`, or again a
`%` as in `b % c`) and the terminator, let `l` evaluate to `a` and `r` to `x`
with `int(a)` and `int(x)` values of the 32-bit `int`, `int(x)` not 0, and
the quotient of `int(a)` by `int(x)` a value of `int` as well (no overflow).
Then `calculate_expression` returns the result of the integer operation of
the `%` branch on `int(a)` and `int(x)`: the operation takes the value of the
whole of `r`. -/
theorem percent_takes_whole_term (A : DoubleOps D) (l r : Ast D) (str : List Char)
    (s : State D) (σ1 : IStream) (k : Nat) (a x : D)
    (hg : (Ast.mod l r).grammatical = true) (hl : l.eval A = .ok a) (hr : r.eval A = .ok x)
    (ha : InIntRange (A.toInt a)) (hxr : InIntRange (A.toInt x))
    (hx : A.toInt x ≠ 0) (hq : InIntRange (Int.tdiv (A.toInt a) (A.toInt x)))
    (hs : s.ts.full = false)
    (hlex : tokenize A k ⟨str, false⟩ =
      .ok ((Ast.mod l r).toks A ++ [Token.ofChar A print], σ1)) :
    Evaluates A str s (.ok (A.ofInt (Int.tdiv (A.toInt a) (A.toInt x)))) := by
  have h := evaluates_ast A (.mod l r) str s (Token.ofChar A print) σ1 k hg hs
    (by simp [Token.ofChar, print]) (by simp [Token.ofChar, print])
    (by simp [Token.ofChar, print]) (by simp [Token.ofChar, print])
    (by simp [Token.ofChar, print]) hlex
  simpa [Ast.eval, hl, hr, ha, hxr, hx, hq] using h

/-- Witness of C13: on `8 % 2 * 3;` the operands are 8 and 6 (the result is
that of `8/6`), not 8 and 2 followed by `* 3` (which would give 12); so it is
on `8 % 6 / 2;` (operands 8 and 3) and on `9 % 7 % 4;` (operands 9 and `7/4`). -/
theorem percent_takes_whole_term_witness :
    Evaluates ratOps (chars "8 % 2 * 3;") (State.init ratOps)
        (.ok (ratOps.ofInt (Int.tdiv 8 6))) ∧
      ratOps.mul (ratOps.ofInt (Int.tdiv 8 2)) 3 = 12 ∧ ratOps.ofInt (Int.tdiv 8 6) = 1 ∧
      Evaluates ratOps (chars "8 % 6 / 2;") (State.init ratOps)
        (.ok (ratOps.ofInt (Int.tdiv 8 3))) ∧
      Evaluates ratOps (chars "9 % 7 % 4;") (State.init ratOps)
        (.ok (ratOps.ofInt (Int.tdiv 9 1))) :=
  ⟨percent_takes_whole_term ratOps (.num 8) (.mul (.num 2) (.num 3)) (chars "8 % 2 * 3;")
      (State.init ratOps) ⟨[], false⟩ 6 8 6 (by decide) (by decide) (by decide) (by decide)
      (by decide) (by decide) (by decide) (by decide) (by decide),
    by decide, by decide,
    percent_takes_whole_term ratOps (.num 8) (.div (.num 6) (.num 2)) (chars "8 % 6 / 2;")
      (State.init ratOps) ⟨[], false⟩ 6 8 3 (by decide) (by decide) (by decide) (by decide)
      (by decide) (by decide) (by decide) (by decide) (by decide),
    percent_takes_whole_term ratOps (.num 9) (.mod (.num 7) (.num 4)) (chars "9 % 7 % 4;")
      (State.init ratOps) ⟨[], false⟩ 6 9 1 (by decide) (by decide) (by decide) (by decide)
      (by decide) (by decide) (by decide) (by decide) (by decide)⟩

/-- C14.  No trailing-input check.  Let the input lex as a parse tree `e` of
the grammar of the source that evaluates to `v` (so no divisor in it is
zero, and at every `%` both conversions and the quotient are values of the
32-bit `int`), followed by a Token that is none of `+ - * / %`, whatever the
rest of the stream.  Then `calculate_expression`, started with an empty
buffer, returns `v`. -/
theorem trailing_input_ignored (A : DoubleOps D) (e : Ast D) (str : List Char)
    (s : State D) (t : Token D) (σ1 : IStream) (k : Nat) (v : D)
    (hg : e.grammatical = true) (hv : e.eval A = .ok v) (hs : s.ts.full = false)
    (t1 : t.kind ≠ '+') (t2 : t.kind ≠ '-') (t3 : t.kind ≠ '*') (t4 : t.kind ≠ '/')
    (t5 : t.kind ≠ '%')
    (hlex : tokenize A k ⟨str, false⟩ = .ok (e.toks A ++ [t], σ1)) :
    Evaluates A str s (.ok v) := by
  have h := evaluates_ast A e str s t σ1 k hg hs t3 t4 t5 t1 t2 hlex
  rwa [hv] at h

/-- Witness of C14: `2+2);` gives 4, and so does `2+2)@#`; `7 % 2);` gives
what `7 % 2;` gives. -/
theorem trailing_input_ignored_witness :
    Evaluates ratOps (chars "2+2);") (State.init ratOps) (.ok 4) ∧
      Evaluates ratOps (chars "2+2)@#") (State.init ratOps) (.ok 4) ∧
      Evaluates ratOps (chars "7 % 2);") (State.init ratOps) (.ok 3) :=
  ⟨trailing_input_ignored ratOps (.add (.num 2) (.num 2)) (chars "2+2);")
      (State.init ratOps) ⟨')', 0⟩ ⟨chars ";", false⟩ 4 4 (by decide) (by decide) (by decide)
      (by decide) (by decide) (by decide) (by decide) (by decide) (by decide),
    trailing_input_ignored ratOps (.add (.num 2) (.num 2)) (chars "2+2)@#")
      (State.init ratOps) ⟨')', 0⟩ ⟨chars "@#", false⟩ 4 4 (by decide) (by decide) (by decide)
      (by decide) (by decide) (by decide) (by decide) (by decide) (by decide),
    trailing_input_ignored ratOps (.mod (.num 7) (.num 2)) (chars "7 % 2);")
      (State.init ratOps) ⟨')', 0⟩ ⟨chars ";", false⟩ 4 3 (by decide) (by decide) (by decide)
      (by decide) (by decide) (by decide) (by decide) (by decide) (by decide)⟩

/-! ## Whitespace -/

theorem skipws_append (ws rest : List Char) (h : ∀ c ∈ ws, isSpace c = true) :
    skipws (ws ++ rest) = skipws rest := by
  induction ws with
  | nil => rfl
  | cons c cs ih =>
    have hc : isSpace c = true := h c (List.mem_cons_self _ _)
    simp only [List.cons_append, skipws, hc, if_true]
    exact ih (fun c1 hc1 => h c1 (List.mem_cons_of_mem _ hc1))

theorem getChar_append (ws rest : List Char) (f : Bool) (h : ∀ c ∈ ws, isSpace c = true) :
    IStream.getChar ⟨ws ++ rest, f⟩ = IStream.getChar ⟨rest, f⟩ := by
  simp [IStream.getChar, skipws_append ws rest h]

theorem get_append (A : DoubleOps D) (ts : Token_stream D) (ws rest : List Char) (f : Bool)
    (hf : ts.full = false) (h : ∀ c ∈ ws, isSpace c = true) :
    Token_stream.get A ⟨ts, ⟨ws ++ rest, f⟩⟩ = Token_stream.get A ⟨ts, ⟨rest, f⟩⟩ := by
  simp [Token_stream.get, hf, getChar_append ws rest f h]

theorem lexToken_append (A : DoubleOps D) (ws rest : List Char) (f : Bool)
    (h : ∀ c ∈ ws, isSpace c = true) :
    lexToken A ⟨ws ++ rest, f⟩ = lexToken A ⟨rest, f⟩ := by
  unfold lexToken
  rw [get_append A _ ws rest f rfl h]

theorem get_alike (A : DoubleOps D) (R : IStream → IStream → Prop) (hR : TokenBisim A R)
    (s s1 : State D) (h : StateAlike R s s1) :
    ResAlike R (Token_stream.get A s) (Token_stream.get A s1) := by
  obtain ⟨⟨full, b⟩, σ⟩ := s
  obtain ⟨⟨full1, b1⟩, σ1⟩ := s1
  obtain ⟨h1, h2⟩ := h
  simp only [Token_stream.mk.injEq] at h1
  obtain ⟨rfl, rfl⟩ := h1
  simp only at h2
  cases full with
  | true =>
    refine Or.inr ⟨b, ⟨⟨false, b⟩, σ⟩, ⟨⟨false, b⟩, σ1⟩, ?_, ?_, rfl, h2⟩ <;>
      simp [Token_stream.get]
  | false =>
    rw [get_of_empty A b σ, get_of_empty A b σ1]
    obtain ⟨he, ho⟩ := hR σ σ1 h2
    cases hl : lexToken A σ with
    | error e =>
      rw [he e hl]
      exact Or.inl ⟨e, rfl, rfl⟩
    | ok p =>
      obtain ⟨t, σ2⟩ := p
      obtain ⟨σ3, h3, h4⟩ := ho t σ2 hl
      rw [h3]
      exact Or.inr ⟨t, _, _, rfl, rfl, rfl, h4⟩

theorem putback_alike (R : IStream → IStream → Prop) (t : Token D) (s s1 : State D)
    (h : StateAlike R s s1) :
    (∃ e, Token_stream.putback t s = .error e ∧ Token_stream.putback t s1 = .error e) ∨
      ∃ s2 s3, Token_stream.putback t s = .ok s2 ∧ Token_stream.putback t s1 = .ok s3 ∧
        StateAlike R s2 s3 := by
  obtain ⟨h1, h2⟩ := h
  unfold Token_stream.putback
  rw [← h1]
  by_cases hf : s.ts.full = true
  · exact Or.inl ⟨.putbackFull, by simp [hf], by simp [hf]⟩
  · exact Or.inr ⟨⟨⟨true, t⟩, s.is⟩, ⟨⟨true, t⟩, s1.is⟩, by simp [hf], by simp [hf], rfl, h2⟩

theorem alike_all (A : DoubleOps D) (R : IStream → IStream → Prop) (hR : TokenBisim A R)
    (n : Nat) :
    (∀ s s1 : State D, StateAlike R s s1 → ResAlike R (primary A n s) (primary A n s1)) ∧
    (∀ s s1 : State D, StateAlike R s s1 → ResAlike R (term A n s) (term A n s1)) ∧
    (∀ (left : D) (t : Token D) (s s1 : State D), StateAlike R s s1 →
      ResAlike R (termLoop A n left t s) (termLoop A n left t s1)) ∧
    (∀ s s1 : State D, StateAlike R s s1 →
      ResAlike R (expression A n s) (expression A n s1)) ∧
    (∀ (left : D) (t : Token D) (s s1 : State D), StateAlike R s s1 →
      ResAlike R (expressionLoop A n left t s) (expressionLoop A n left t s1)) := by
  induction n with
  | zero =>
    refine ⟨?_, ?_, ?_, ?_, ?_⟩ <;> intros <;>
      exact Or.inl ⟨.outOfFuel, by simp [primary, term, termLoop, expression, expressionLoop],
        by simp [primary, term, termLoop, expression, expressionLoop]⟩
  | succ n ih =>
    obtain ⟨ihP, ihT, ihTL, ihE, ihEL⟩ := ih
    refine ⟨?_, ?_, ?_, ?_, ?_⟩
    · intro s s1 hs
      unfold primary
      rcases get_alike A R hR s s1 hs with ⟨e, h1, h2⟩ | ⟨t, s2, s3, h1, h2, hs2⟩
      · rw [h1, h2]; exact Or.inl ⟨e, rfl, rfl⟩
      · rw [h1, h2]
        simp only []
        split
        · rcases ihE s2 s3 hs2 with ⟨e, h3, h4⟩ | ⟨d, s4, s5, h3, h4, hs4⟩
          · rw [h3, h4]; exact Or.inl ⟨e, rfl, rfl⟩
          · rw [h3, h4]
            simp only []
            rcases get_alike A R hR s4 s5 hs4 with ⟨e, h5, h6⟩ | ⟨t1, s6, s7, h5, h6, hs6⟩
            · rw [h5, h6]; exact Or.inl ⟨e, rfl, rfl⟩
            · rw [h5, h6]
              simp only []
              split
              · exact Or.inl ⟨_, rfl, rfl⟩
              · exact Or.inr ⟨d, s6, s7, rfl, rfl, hs6⟩
        · split
          · exact Or.inr ⟨_, s2, s3, rfl, rfl, hs2⟩
          · split
            · rcases ihP s2 s3 hs2 with ⟨e, h3, h4⟩ | ⟨x, s4, s5, h3, h4, hs4⟩
              · rw [h3, h4]; exact Or.inl ⟨e, rfl, rfl⟩
              · rw [h3, h4]; exact Or.inr ⟨_, s4, s5, rfl, rfl, hs4⟩
            · split
              · exact ihP s2 s3 hs2
              · exact Or.inl ⟨_, rfl, rfl⟩
    · intro s s1 hs
      unfold term
      rcases ihP s s1 hs with ⟨e, h1, h2⟩ | ⟨left, s2, s3, h1, h2, hs2⟩
      · rw [h1, h2]; exact Or.inl ⟨e, rfl, rfl⟩
      · rw [h1, h2]
        simp only []
        rcases get_alike A R hR s2 s3 hs2 with ⟨e, h3, h4⟩ | ⟨t, s4, s5, h3, h4, hs4⟩
        · rw [h3, h4]; exact Or.inl ⟨e, rfl, rfl⟩
        · rw [h3, h4]; exact ihTL left t s4 s5 hs4
    · intro left t s s1 hs
      unfold termLoop
      split
      · rcases ihP s s1 hs with ⟨e, h1, h2⟩ | ⟨x, s2, s3, h1, h2, hs2⟩
        · rw [h1, h2]; exact Or.inl ⟨e, rfl, rfl⟩
        · rw [h1, h2]
          simp only []
          rcases get_alike A R hR s2 s3 hs2 with ⟨e, h3, h4⟩ | ⟨t1, s4, s5, h3, h4, hs4⟩
          · rw [h3, h4]; exact Or.inl ⟨e, rfl, rfl⟩
          · rw [h3, h4]; exact ihTL _ t1 s4 s5 hs4
      · split
        · rcases ihP s s1 hs with ⟨e, h1, h2⟩ | ⟨d, s2, s3, h1, h2, hs2⟩
          · rw [h1, h2]; exact Or.inl ⟨e, rfl, rfl⟩
          · rw [h1, h2]
            simp only []
            split
            · exact Or.inl ⟨_, rfl, rfl⟩
            · rcases get_alike A R hR s2 s3 hs2 with ⟨e, h3, h4⟩ | ⟨t1, s4, s5, h3, h4, hs4⟩
              · rw [h3, h4]; exact Or.inl ⟨e, rfl, rfl⟩
              · rw [h3, h4]; exact ihTL _ t1 s4 s5 hs4
        · split
          · simp only []
            split
            · exact Or.inl ⟨_, rfl, rfl⟩
            · rcases ihT s s1 hs with ⟨e, h1, h2⟩ | ⟨x, s2, s3, h1, h2, hs2⟩
              · rw [h1, h2]; exact Or.inl ⟨e, rfl, rfl⟩
              · rw [h1, h2]
                simp only []
                split
                · exact Or.inl ⟨_, rfl, rfl⟩
                · split
                  · exact Or.inl ⟨_, rfl, rfl⟩
                  · split
                    · exact Or.inl ⟨_, rfl, rfl⟩
                    · rcases get_alike A R hR s2 s3 hs2 with
                        ⟨e, h3, h4⟩ | ⟨t1, s4, s5, h3, h4, hs4⟩
                      · rw [h3, h4]; exact Or.inl ⟨e, rfl, rfl⟩
                      · rw [h3, h4]; exact ihTL _ t1 s4 s5 hs4
          · rcases putback_alike R t s s1 hs with ⟨e, h1, h2⟩ | ⟨s2, s3, h1, h2, hs2⟩
            · rw [h1, h2]; exact Or.inl ⟨e, rfl, rfl⟩
            · rw [h1, h2]; exact Or.inr ⟨left, s2, s3, rfl, rfl, hs2⟩
    · intro s s1 hs
      unfold expression
      rcases ihT s s1 hs with ⟨e, h1, h2⟩ | ⟨left, s2, s3, h1, h2, hs2⟩
      · rw [h1, h2]; exact Or.inl ⟨e, rfl, rfl⟩
      · rw [h1, h2]
        simp only []
        rcases get_alike A R hR s2 s3 hs2 with ⟨e, h3, h4⟩ | ⟨t, s4, s5, h3, h4, hs4⟩
        · rw [h3, h4]; exact Or.inl ⟨e, rfl, rfl⟩
        · rw [h3, h4]; exact ihEL left t s4 s5 hs4
    · intro left t s s1 hs
      unfold expressionLoop
      split
      · rcases ihT s s1 hs with ⟨e, h1, h2⟩ | ⟨x, s2, s3, h1, h2, hs2⟩
        · rw [h1, h2]; exact Or.inl ⟨e, rfl, rfl⟩
        · rw [h1, h2]
          simp only []
          rcases get_alike A R hR s2 s3 hs2 with ⟨e, h3, h4⟩ | ⟨t1, s4, s5, h3, h4, hs4⟩
          · rw [h3, h4]; exact Or.inl ⟨e, rfl, rfl⟩
          · rw [h3, h4]; exact ihEL _ t1 s4 s5 hs4
      · split
        · rcases ihT s s1 hs with ⟨e, h1, h2⟩ | ⟨x, s2, s3, h1, h2, hs2⟩
          · rw [h1, h2]; exact Or.inl ⟨e, rfl, rfl⟩
          · rw [h1, h2]
            simp only []
            rcases get_alike A R hR s2 s3 hs2 with ⟨e, h3, h4⟩ | ⟨t1, s4, s5, h3, h4, hs4⟩
            · rw [h3, h4]; exact Or.inl ⟨e, rfl, rfl⟩
            · rw [h3, h4]; exact ihEL _ t1 s4 s5 hs4
        · rcases putback_alike R t s s1 hs with ⟨e, h1, h2⟩ | ⟨s2, s3, h1, h2, hs2⟩
          · rw [h1, h2]; exact Or.inl ⟨e, rfl, rfl⟩
          · rw [h1, h2]; exact Or.inr ⟨left, s2, s3, rfl, rfl, hs2⟩

theorem skipTerminators_alike (A : DoubleOps D) (R : IStream → IStream → Prop)
    (hR : TokenBisim A R) (n : Nat) :
    ∀ (t : Token D) (s s1 : State D), StateAlike R s s1 →
      ResAlike R (skipTerminators A n t s) (skipTerminators A n t s1) := by
  induction n with
  | zero =>
    intro t s s1 _
    exact Or.inl ⟨.outOfFuel, by simp [skipTerminators], by simp [skipTerminators]⟩
  | succ n ih =>
    intro t s s1 hs
    unfold skipTerminators
    split
    · rcases get_alike A R hR s s1 hs with ⟨e, h1, h2⟩ | ⟨t1, s2, s3, h1, h2, hs2⟩
      · rw [h1, h2]; exact Or.inl ⟨e, rfl, rfl⟩
      · rw [h1, h2]; exact ih t1 s2 s3 hs2
    · rcases putback_alike R t s s1 hs with ⟨e, h1, h2⟩ | ⟨s2, s3, h1, h2, hs2⟩
      · rw [h1, h2]; exact Or.inl ⟨e, rfl, rfl⟩
      · rw [h1, h2]; exact (alike_all A R hR n).2.2.2.1 s2 s3 hs2

theorem calculate_expression_alike (A : DoubleOps D) (str str1 : List Char)
    (h : LexAlike A ⟨str, false⟩ ⟨str1, false⟩) (fuel : Nat) (s0 : State D) :
    outcome (calculate_expression A fuel str s0) =
      outcome (calculate_expression A fuel str1 s0) := by
  obtain ⟨R, hR, h0⟩ := h
  have hs : StateAlike R { s0 with is := ⟨str, false⟩ } { s0 with is := ⟨str1, false⟩ } :=
    ⟨rfl, h0⟩
  unfold calculate_expression
  rcases get_alike A R hR _ _ hs with ⟨e, h1, h2⟩ | ⟨t, s2, s3, h1, h2, hs2⟩
  · rw [h1, h2]
  · rw [h1, h2]
    simp only []
    rcases skipTerminators_alike A R hR fuel t s2 s3 hs2 with
      ⟨e, h3, h4⟩ | ⟨v, s4, s5, h3, h4, _⟩
    · rw [h3, h4]
    · rw [h3, h4]; rfl

theorem lexAlike_refl (A : DoubleOps D) (σ : IStream) : LexAlike A σ σ :=
  ⟨fun x y => x = y, fun x y hxy => by
    subst hxy
    exact ⟨fun e he => he, fun t σ2 h => ⟨σ2, h, rfl⟩⟩, rfl⟩

theorem lexAlike_step (A : DoubleOps D) (σ σ1 σ2 σ3 : IStream) (t : Token D)
    (h1 : lexToken A σ = .ok (t, σ2)) (h2 : lexToken A σ1 = .ok (t, σ3))
    (h : LexAlike A σ2 σ3) : LexAlike A σ σ1 := by
  obtain ⟨R, hR, h0⟩ := h
  refine ⟨fun x y => R x y ∨ (x = σ ∧ y = σ1), ?_, Or.inr ⟨rfl, rfl⟩⟩
  intro x y hxy
  rcases hxy with hxy | ⟨rfl, rfl⟩
  · obtain ⟨he, ho⟩ := hR x y hxy
    refine ⟨he, fun t1 σ4 h4 => ?_⟩
    obtain ⟨σ5, h5, h6⟩ := ho t1 σ4 h4
    exact ⟨σ5, h5, Or.inl h6⟩
  · refine ⟨fun e he => ?_, fun t1 σ4 h4 => ?_⟩
    · rw [h1] at he; cases he
    · rw [h1] at h4
      cases h4
      exact ⟨σ3, h2, Or.inl h0⟩

theorem lexAlike_whitespace (A : DoubleOps D) (ws rest : List Char) (f : Bool)
    (h : ∀ c ∈ ws, isSpace c = true) : LexAlike A ⟨ws ++ rest, f⟩ ⟨rest, f⟩ := by
  refine ⟨fun x y => x = y ∨ (x = ⟨ws ++ rest, f⟩ ∧ y = ⟨rest, f⟩), ?_, Or.inr ⟨rfl, rfl⟩⟩
  intro x y hxy
  rcases hxy with rfl | ⟨rfl, rfl⟩
  · exact ⟨fun e he => he, fun t σ2 h2 => ⟨σ2, h2, Or.inl rfl⟩⟩
  · rw [lexToken_append A ws rest f h]
    exact ⟨fun e he => he, fun t σ2 h2 => ⟨σ2, h2, Or.inl rfl⟩⟩

/-- C18.  Whitespace before a Token is skipped: with an empty buffer, `get`
on a run of whitespace followed by `rest` returns what `get` on `rest`
returns, the same Token (or error) and the same state.  Hence a stream and
the stream with whitespace put in front are read as the same Tokens, which
carries over from the rest of two streams to the streams when they start with
the same Token; and on two inputs that are read as the same Tokens
`calculate_expression` has the same outcome. -/
theorem whitespace_skipped (A : DoubleOps D) :
    (∀ (ts : Token_stream D) (ws rest : List Char) (f : Bool), ts.full = false →
        (∀ c ∈ ws, isSpace c = true) →
        Token_stream.get A ⟨ts, ⟨ws ++ rest, f⟩⟩ = Token_stream.get A ⟨ts, ⟨rest, f⟩⟩) ∧
      (∀ (ws rest : List Char) (f : Bool), (∀ c ∈ ws, isSpace c = true) →
        LexAlike A ⟨ws ++ rest, f⟩ ⟨rest, f⟩) ∧
      (∀ (σ σ1 σ2 σ3 : IStream) (t : Token D), lexToken A σ = .ok (t, σ2) →
        lexToken A σ1 = .ok (t, σ3) → LexAlike A σ2 σ3 → LexAlike A σ σ1) ∧
      (∀ (str str1 : List Char), LexAlike A ⟨str, false⟩ ⟨str1, false⟩ →
        ∀ (fuel : Nat) (s0 : State D),
          outcome (calculate_expression A fuel str s0) =
            outcome (calculate_expression A fuel str1 s0)) :=
  ⟨fun ts ws rest f hf h => get_append A ts ws rest f hf h,
    fun ws rest f h => lexAlike_whitespace A ws rest f h,
    fun σ σ1 σ2 σ3 t h1 h2 h => lexAlike_step A σ σ1 σ2 σ3 t h1 h2 h,
    fun str str1 h fuel s0 => calculate_expression_alike A str str1 h fuel s0⟩

/-- Witness of C18: ` 2 + 3 ;` and `2+3;` both give 5. -/
theorem whitespace_skipped_witness :
    Token_stream.get ratOps ⟨Token_stream.init ratOps, ⟨chars " \t 2+3;", false⟩⟩ =
        Token_stream.get ratOps ⟨Token_stream.init ratOps, ⟨chars "2+3;", false⟩⟩ ∧
      outcome (calculate_expression ratOps 20 (chars " 2 + 3 ;") (State.init ratOps)) =
        outcome (calculate_expression ratOps 20 (chars "2+3;") (State.init ratOps)) ∧
      outcome (calculate_expression ratOps 20 (chars "2+3;") (State.init ratOps)) = .ok 5 :=
  ⟨(whitespace_skipped ratOps).1 (Token_stream.init ratOps) (chars " \t ") (chars "2+3;")
      false rfl (by decide),
    (whitespace_skipped ratOps).2.2.2 (chars " 2 + 3 ;") (chars "2+3;")
      ((whitespace_skipped ratOps).2.2.1 ⟨chars " 2 + 3 ;", false⟩ ⟨chars "2+3;", false⟩
        ⟨chars " + 3 ;", false⟩ ⟨chars "+3;", false⟩ ⟨'8', 2⟩ rfl rfl
        ((whitespace_skipped ratOps).2.2.1 ⟨chars " + 3 ;", false⟩ ⟨chars "+3;", false⟩
          ⟨chars " 3 ;", false⟩ ⟨chars "3;", false⟩ ⟨'+', 0⟩ rfl rfl
          ((whitespace_skipped ratOps).2.2.1 ⟨chars " 3 ;", false⟩ ⟨chars "3;", false⟩
            ⟨chars " ;", false⟩ ⟨chars ";", false⟩ ⟨'8', 3⟩ rfl rfl
            ((whitespace_skipped ratOps).2.1 (chars " ") (chars ";") false (by decide)))))
      20 (State.init ratOps),
    by decide⟩

end Calculator
